import Mathlib

/-!
# pictotile: the per-tile 2-bit encoder and the tile walk of `main`

A shallow embedding of `src/pictotile.go`.

* Go slices and arrays are lists; every indexed read and write is checked, and
  an index out of range (a Go run-time panic) is `none`.
* `uint` arithmetic (`dimX`, `dimY`, offsets, spacings, `pixelCount`) is
  arithmetic modulo `2^64`; the `uint32` sums of the comparator are modulo
  `2^32`; `byte` arithmetic is modulo `256`.
* `color.Color` is an interface of the standard library: the encoder uses only
  `==` on interface values and the method `RGBA()`.  It is taken as a parameter
  (`GoColor`), together with the one concrete value the encoder builds itself,
  `color.Gray{0}`.
* A counted `for` loop is a recursion over the list of the values its counter
  takes; the two tile loops of `main`, whose counters are advanced by a step
  that can wrap around, are a recursion on fuel.
-/

namespace Pictotile

/-! ## Slices -/

/-- Checked write `a[i] = v`: `none` when `i` is out of range. -/
def wr {α : Type} (a : List α) (i : Nat) (v : α) : Option (List α) :=
  if i < a.length then some (a.set i v) else none

/-- Values of the counter of `for k := lo; k < hi; k++` over `int`. -/
def intRange (lo hi : Int) : List Int :=
  (List.range (hi - lo).toNat).map (fun (k : Nat) => lo + (k : Int))

/-- Values of the counter of `for k := lo; k < hi; k++` over naturals. -/
def natRange (lo hi : Nat) : List Nat :=
  List.range' lo (hi - lo)

/-! ## Colors and images -/

/-- The interface `color.Color` as the encoder sees it: the method `RGBA()`,
whose four results lie in `[0, 0xffff]` by the interface's contract, and the
value `color.Gray{0}`, whose `RGBA()` is `(0, 0, 0, 0xffff)`.  Equality of
interface values (`==`) is the decidable equality of the carrier. -/
class GoColor (C : Type) where
  /-- The method `RGBA()`: red, green, blue, alpha. -/
  RGBA : C → Nat × Nat × Nat × Nat
  /-- The value `color.Gray{0}`. -/
  Gray0 : C
  /-- Each result of `RGBA()` is at most `0xffff`. -/
  RGBA_le : ∀ c : C, (RGBA c).1 ≤ 0xffff ∧ (RGBA c).2.1 ≤ 0xffff ∧
    (RGBA c).2.2.1 ≤ 0xffff ∧ (RGBA c).2.2.2 ≤ 0xffff
  /-- The method `RGBA()` of `color.Gray{0}`. -/
  RGBA_Gray0 : RGBA Gray0 = (0, 0, 0, 0xffff)

/-- An `image.Rectangle`: `Min.X, Min.Y, Max.X, Max.Y`. -/
structure Rectangle where
  MinX : Int
  MinY : Int
  MaxX : Int
  MaxY : Int
deriving DecidableEq, Repr

/-- An `image.Image` as the program uses it: `Bounds()` and `At(x, y)`. -/
structure Image (C : Type) where
  Bounds : Rectangle
  At : Int → Int → C

/-- The two concrete color types used in examples: `color.Gray{Y}` and
`color.RGBA{R, G, B, A}`, fields read modulo 256. -/
inductive StdColor where
  | Gray (Y : Nat)
  | RGBA (R G B A : Nat)
deriving DecidableEq, Repr

/-- The methods `RGBA()` of `color.Gray` and `color.RGBA`: each 8-bit field
`v` becomes `v | v << 8 = v * 0x101`; a gray has alpha `0xffff`. -/
def StdColor.rgba : StdColor → Nat × Nat × Nat × Nat
  | .Gray y => (y % 256 * 0x101, y % 256 * 0x101, y % 256 * 0x101, 0xffff)
  | .RGBA r g b a => (r % 256 * 0x101, g % 256 * 0x101, b % 256 * 0x101, a % 256 * 0x101)

instance : GoColor StdColor where
  RGBA := StdColor.rgba
  Gray0 := StdColor.Gray 0
  RGBA_le := by
    intro c
    cases c <;> simp only [StdColor.rgba] <;> omega
  RGBA_Gray0 := rfl

section Encoder

variable {C : Type} [DecidableEq C] [GoColor C]

/-! ## `Encode`, lines 146-168: palette extraction -/

/-- The search loop `for i := 0; i < int(colCount); i++`: is `color` one of
the slots already filled?  The list is the remaining values of `i`. -/
def colorFound (palette : List C) (color : C) : List Nat → Option Bool
  | [] => some false
  | i :: is => do
      let p ← palette[i]?
      if color = p then some true else colorFound palette color is

/-- Body of the pixel loop up to the `break` test: look the color up and, when
it is new, store it at `palette[colCount]` and increment the `byte` counter. -/
def scanPixel (color : C) (st : List C × Nat) : Option (List C × Nat) := do
  let found ← colorFound st.1 color (natRange 0 st.2)
  if found then some st
  else do
    let palette ← wr st.1 st.2 color
    some (palette, (st.2 + 1) % 256)

/-- The loop over `x` of one pixel row, leaving it once `colCount >= 4`. -/
def scanRow (tile : Image C) (y : Int) : List Int → List C × Nat → Option (List C × Nat)
  | [], st => some st
  | x :: xs, st => do
      let st ← scanPixel (tile.At x y) st
      if st.2 ≥ 4 then some st else scanRow tile y xs st

/-- The loop over `y`, leaving it once `colCount >= 4`. -/
def scanRows (tile : Image C) (xs : List Int) : List Int → List C × Nat → Option (List C × Nat)
  | [], st => some st
  | y :: ys, st => do
      let st ← scanRow tile y xs st
      if st.2 ≥ 4 then some st else scanRows tile xs ys st

/-- Lines 135-168: the palette, all four slots `color.Gray{0}`, then the scan.
The result is the palette and `colCount`. -/
def extractPalette (tile : Image C) : Option (List C × Nat) :=
  scanRows tile (intRange tile.Bounds.MinX tile.Bounds.MaxX)
    (intRange tile.Bounds.MinY tile.Bounds.MaxY) (List.replicate 4 GoColor.Gray0, 0)

/-! ## `Encode`, lines 170-194: palette ordering -/

/-- The test that decides a swap of `palette[j]` (`c0`) and `palette[j+1]`
(`c1`): the `if` / `else if` chain of lines 181-190 over `uint32` sums. -/
def brighter (c1 c0 : C) : Bool :=
  let (r0, g0, b0, _) := GoColor.RGBA c0
  let (r1, g1, b1, _) := GoColor.RGBA c1
  if (r1 + g1 + b1) % 2 ^ 32 > (r0 + g0 + b0) % 2 ^ 32 then true
  else if (r1 + g1 + b1) % 2 ^ 32 = (r0 + g0 + b0) % 2 ^ 32 then
    if (g1 + b1) % 2 ^ 32 > (g0 + b0) % 2 ^ 32 then true
    else if (g1 + b1) % 2 ^ 32 = (g0 + b0) % 2 ^ 32 then
      if b1 > b0 then true else false
    else false
  else false

/-- Body of the loop over `j`: compare `palette[j]` with `palette[j+1]` and
swap them when the second is brighter. -/
def sortStep (palette : List C) (j : Nat) : Option (List C) := do
  let c0 ← palette[j]?
  let c1 ← palette[j + 1]?
  if brighter c1 c0 then do
    let palette ← wr palette j c1
    wr palette (j + 1) c0
  else some palette

/-- The loop `for j := min; j < 3-i; j++`; the list is the remaining `j`. -/
def sortPass (palette : List C) : List Nat → Option (List C)
  | [] => some palette
  | j :: js => do
      let palette ← sortStep palette j
      sortPass palette js

/-- The loop `for i := 0; i < 4; i++`; the list is the remaining `i`. -/
def sortPasses (min : Nat) (palette : List C) : List Nat → Option (List C)
  | [] => some palette
  | i :: is => do
      let palette ← sortPass palette (natRange min (3 - i))
      sortPasses min palette is

/-- Lines 170-194: `min` is 1 with `spriteMode` and 0 without. -/
def orderPalette (spriteMode : Bool) (palette : List C) : Option (List C) :=
  sortPasses (if spriteMode then 1 else 0) palette (natRange 0 4)

/-! ## `Encode`, lines 196-209: quantization -/

/-- The loop `for i = 0; i < 4; i++` with its `break`; the result is the value
of `i` after the loop, which is 4 when no slot matched. -/
def slotIndex (palette : List C) (color : C) : List Nat → Option Nat
  | [] => some 4
  | i :: is => do
      let p ← palette[i]?
      if color = p then some i else slotIndex palette color is

/-- The loop over `x` of one pixel row: `rawData[pixelCount] = i`, `pixelCount++`. -/
def quantRow (tile : Image C) (palette : List C) (y : Int) :
    List Int → List Nat × Nat → Option (List Nat × Nat)
  | [], st => some st
  | x :: xs, st => do
      let i ← slotIndex palette (tile.At x y) (natRange 0 4)
      let rawData ← wr st.1 st.2 i
      quantRow tile palette y xs (rawData, (st.2 + 1) % 2 ^ 64)

/-- The loop over `y`. -/
def quantRows (tile : Image C) (palette : List C) (xs : List Int) :
    List Int → List Nat × Nat → Option (List Nat × Nat)
  | [], st => some st
  | y :: ys, st => do
      let st ← quantRow tile palette y xs st
      quantRows tile palette xs ys st

/-- Lines 196-209 on a fresh `rawData = make([]byte, dimX*dimY)`. -/
def quantize (dimX dimY : Nat) (tile : Image C) (palette : List C) : Option (List Nat) := do
  let st ← quantRows tile palette (intRange tile.Bounds.MinX tile.Bounds.MaxX)
    (intRange tile.Bounds.MinY tile.Bounds.MaxY) (List.replicate (dimX * dimY % 2 ^ 64) 0, 0)
  some st.1

end Encoder

/-! ## `Encode`, lines 210-224: bit-plane packing -/

/-- Body of the loop over `n` (lines 219 and 221), in `byte` arithmetic; `n`
runs over 0..7, so `7 - byte(n)` does not wrap. -/
def packStep (rawData data : List Nat) (i n : Nat) : Option (List Nat) := do
  let r ← rawData[8 * i + n]?
  let d ← data[2 * i]?
  let data ← wr data (2 * i) ((((r &&& 1) <<< (7 - n)) % 256) ||| d)
  let r ← rawData[8 * i + n]?
  let d ← data[2 * i + 1]?
  wr data (2 * i + 1) (((((r &&& 2) >>> 1) <<< (7 - n)) % 256) ||| d)

/-- The loop `for n := 0; n < 8; n++`; the list is the remaining `n`. -/
def packRow (rawData : List Nat) (i : Nat) : List Nat → List Nat → Option (List Nat)
  | [], data => some data
  | n :: ns, data => do
      let data ← packStep rawData data i n
      packRow rawData i ns data

/-- The loop `for i := 0; i < int(dimX*dimY/8); i += 1`; the list is the
remaining `i`. -/
def packRows (rawData : List Nat) : List Nat → List Nat → Option (List Nat)
  | [], data => some data
  | i :: is, data => do
      let data ← packRow rawData i (natRange 0 8) data
      packRows rawData is data

/-- Lines 210-224 on a fresh `data = make([]byte, dimX*dimY/4)`. -/
def pack (dimX dimY : Nat) (rawData : List Nat) : Option (List Nat) :=
  packRows rawData (natRange 0 (dimX * dimY % 2 ^ 64 / 8))
    (List.replicate (dimX * dimY % 2 ^ 64 / 4) 0)

/-! ## `Encode` -/

/-- The function `Encode` (lines 134-225); `dimX`, `dimY` and `spriteMode` are
the globals it reads.  The result is `none` when an index is out of range. -/
def Encode {C : Type} [DecidableEq C] [GoColor C] (dimX dimY : Nat) (spriteMode : Bool)
    (tile : Image C) : Option (List Nat) := do
  let st ← extractPalette tile
  let palette ← orderPalette spriteMode st.1
  let rawData ← quantize dimX dimY tile palette
  pack dimX dimY rawData

/-! ## `main`, lines 93-103: the tile walk -/

/-- Conversion `uint(v)` of an `int`. -/
def toUint (v : Int) : Nat := (v % 2 ^ 64).toNat

/-- Conversion `int(v)` of a `uint`. -/
def toInt (v : Nat) : Int :=
  if v % 2 ^ 64 < 2 ^ 63 then ((v % 2 ^ 64 : Nat) : Int) else ((v % 2 ^ 64 : Nat) : Int) - 2 ^ 64

/-- The standard library's `image.Rect(x0, y0, x1, y1)`: the rectangle with
these corners, coordinates swapped where needed so that `Min ≤ Max`. -/
def Rect (x0 y0 x1 y1 : Int) : Rectangle :=
  { MinX := if x0 > x1 then x1 else x0
    MinY := if y0 > y1 then y1 else y0
    MaxX := if x0 > x1 then x0 else x1
    MaxY := if y0 > y1 then y0 else y1 }

/-- The standard library's `Rectangle.Empty`. -/
def Rectangle.Empty (r : Rectangle) : Bool :=
  decide (r.MinX ≥ r.MaxX) || decide (r.MinY ≥ r.MaxY)

/-- The standard library's `Rectangle.Intersect`: the largest rectangle
contained in both, the zero rectangle when that is empty. -/
def Rectangle.Intersect (r s : Rectangle) : Rectangle :=
  let r1 : Rectangle :=
    { MinX := if r.MinX < s.MinX then s.MinX else r.MinX
      MinY := if r.MinY < s.MinY then s.MinY else r.MinY
      MaxX := if r.MaxX > s.MaxX then s.MaxX else r.MaxX
      MaxY := if r.MaxY > s.MaxY then s.MaxY else r.MaxY }
  if r1.Empty then ⟨0, 0, 0, 0⟩ else r1

/-- The method `SubImage` of the standard library's image types (the interface
`sImage`): the part of the image visible through `r`, an empty image when there
is none. -/
def SubImage {C : Type} (p : Image C) (r : Rectangle) : Image C :=
  if (r.Intersect p.Bounds).Empty then { Bounds := ⟨0, 0, 0, 0⟩, At := p.At }
  else { Bounds := r.Intersect p.Bounds, At := p.At }

/-- The loop over `x` of lines 97-102 for the row at `y`, in `uint` arithmetic:
while `x + dimX - 1 < maxX`, append what the body yields for the tile at
`(x, y)` to `outputData` and advance `x` by `dimX + spacingX`.  The body is
`enc`; the loop gives up (`none`) when `fuel` iterations do not end it. -/
def walkRow {β : Type} (dimX spacingX maxX : Nat) (enc : Nat → Option (List β)) :
    Nat → Nat → List β → Option (List β)
  | 0, _, _ => none
  | fuel + 1, x, outputData =>
      if (x + dimX + (2 ^ 64 - 1)) % 2 ^ 64 < maxX then do
        let e ← enc x
        walkRow dimX spacingX maxX enc fuel ((x + (dimX + spacingX)) % 2 ^ 64) (outputData ++ e)
      else some outputData

/-- The loop over `y` of lines 96-103: while `y + dimY - 1 < maxY`, run the
loop over `x` from `offsetX` and advance `y` by `dimY + spacingY`.  Each run of
the inner loop gets `fuelX` iterations. -/
def walk {β : Type} (dimX dimY offsetX spacingX spacingY maxX maxY : Nat)
    (enc : Nat → Nat → Option (List β)) (fuelX : Nat) :
    Nat → Nat → List β → Option (List β)
  | 0, _, _ => none
  | fuel + 1, y, outputData =>
      if (y + dimY + (2 ^ 64 - 1)) % 2 ^ 64 < maxY then do
        let outputData ← walkRow dimX spacingX maxX (fun x => enc x y) fuelX offsetX outputData
        walk dimX dimY offsetX spacingX spacingY maxX maxY enc fuelX fuel
          ((y + (dimY + spacingY)) % 2 ^ 64) outputData
      else some outputData

/-- The origins `(x, y)` of the tiles the two loops of `main` visit, in the
order of the visits: the walk with a body that records the origin. -/
def tileOrigins (dimX dimY offsetX offsetY spacingX spacingY maxX maxY fuel : Nat) :
    Option (List (Nat × Nat)) :=
  walk dimX dimY offsetX spacingX spacingY maxX maxY (fun x y => some [(x, y)]) fuel fuel
    offsetY []

/-- The tile `main` cuts out at `(x, y)` (line 98). -/
def tileAt {C : Type} (dimX dimY : Nat) (tileset : Image C) (x y : Nat) : Image C :=
  SubImage tileset
    (Rect (toInt x) (toInt y) (toInt ((x + dimX) % 2 ^ 64)) (toInt ((y + dimY) % 2 ^ 64)))

/-- Lines 86-103 of `main`: `outputData` after the two loops, each tile's
`Encode` appended in turn. -/
def mainOutput {C : Type} [DecidableEq C] [GoColor C]
    (dimX dimY offsetX offsetY spacingX spacingY : Nat) (spriteMode : Bool) (tileset : Image C)
    (fuel : Nat) : Option (List Nat) :=
  walk dimX dimY offsetX spacingX spacingY (toUint tileset.Bounds.MaxX)
    (toUint tileset.Bounds.MaxY)
    (fun x y => Encode dimX dimY spriteMode (tileAt dimX dimY tileset x y)) fuel fuel offsetY []

/-- The tiles the two loops of `main` hand to `Encode`, in the order of the
visits: for each visit the origin `(x, y)` and the `Bounds()` of the sub-image
cut out at line 98.  The loop bounds are `uint(tilesetSize.Max.X)` and
`uint(tilesetSize.Max.Y)`, as in lines 96-97. -/
def mainTiles {C : Type} (dimX dimY offsetX offsetY spacingX spacingY : Nat)
    (tileset : Image C) (fuel : Nat) : Option (List (Nat × Nat × Rectangle)) :=
  walk dimX dimY offsetX spacingX spacingY (toUint tileset.Bounds.MaxX)
    (toUint tileset.Bounds.MaxY)
    (fun x y => some [(x, y, (tileAt dimX dimY tileset x y).Bounds)]) fuel fuel offsetY []

/-! ## Auxiliary definitions used in the statements and proofs -/

/-- The value or-ed into the low byte for index `r` at column `n` (line 219). -/
def lowBit (r n : Nat) : Nat := ((r &&& 1) <<< (7 - n)) % 256

/-- The value or-ed into the high byte for index `r` at column `n` (line 221). -/
def highBit (r n : Nat) : Nat := (((r &&& 2) >>> 1) <<< (7 - n)) % 256

/-- The byte accumulated by or-ing `f n` for the `n` of a list, in order. -/
def orAll (f : Nat → Nat) (ns : List Nat) (acc : Nat) : Nat :=
  ns.foldl (fun a n => f n ||| a) acc

section EncoderAux

variable {C : Type} [DecidableEq C] [GoColor C]

/-- The pixels of a tile in the order the loops of `Encode` visit them: rows
top to bottom, each row left to right. -/
def pixels (tile : Image C) : List C :=
  (intRange tile.Bounds.MinY tile.Bounds.MaxY).flatMap
    (fun y => (intRange tile.Bounds.MinX tile.Bounds.MaxX).map (fun x => tile.At x y))

/-- The distinct colors of a sequence in first-seen order: the first color,
then the first-seen order of the rest without that color. -/
def firstSeen : List C → List C
  | [] => []
  | c :: cs => c :: (firstSeen cs).filter (fun d => decide (d ≠ c))

/-- One step of collecting distinct colors: append `c` unless already there. -/
def addNew (filled : List C) (c : C) : List C :=
  if c ∈ filled then filled else filled ++ [c]

/-- A palette whose first slots are `filled` and whose other slots still hold
`color.Gray{0}`. -/
def padded (filled : List C) : List C :=
  filled ++ List.replicate (4 - filled.length) GoColor.Gray0

/-- The scan of `Encode` over a flat pixel sequence: the two nested loops with
their `break`s, once the rows are concatenated. -/
def scanList : List C → List C × Nat → Option (List C × Nat)
  | [], st => some st
  | c :: cs, st => do
      let st ← scanPixel c st
      if st.2 ≥ 4 then some st else scanList cs st

end EncoderAux

section OrderAux

variable {C : Type} [GoColor C]

/-- The sort key of a color: `(R+G+B, G+B, B)` of its `RGBA()`. -/
def key (c : C) : Nat × Nat × Nat :=
  ((GoColor.RGBA c).1 + (GoColor.RGBA c).2.1 + (GoColor.RGBA c).2.2.1,
    (GoColor.RGBA c).2.1 + (GoColor.RGBA c).2.2.1, (GoColor.RGBA c).2.2.1)

/-- Lexicographic `k1 ≥ k2` on keys: first components, then second, then third. -/
def keyGe (k1 k2 : Nat × Nat × Nat) : Prop :=
  k2.1 < k1.1 ∨ (k1.1 = k2.1 ∧ (k2.2.1 < k1.2.1 ∨ (k1.2.1 = k2.2.1 ∧ k2.2.2 ≤ k1.2.2)))

instance (k1 k2 : Nat × Nat × Nat) : Decidable (keyGe k1 k2) := by
  unfold keyGe
  exact inferInstance

/-- A key as one number: the lexicographic order of keys whose components are
below `2^20` is the order of these numbers. -/
def rank (c : C) : Nat :=
  (key c).1 * 2 ^ 40 + (key c).2.1 * 2 ^ 20 + (key c).2.2

/-- One compare-and-swap of the ordering loop on a palette of four slots: the
effect of the loop body at `j`. -/
def cx : Nat → List C → List C
  | 0, [a, b, c, d] => if brighter b a then [b, a, c, d] else [a, b, c, d]
  | 1, [a, b, c, d] => if brighter c b then [a, c, b, d] else [a, b, c, d]
  | 2, [a, b, c, d] => if brighter d c then [a, b, d, c] else [a, b, c, d]
  | _, l => l

end OrderAux

section QuantAux

variable {C : Type} [DecidableEq C] [GoColor C]

/-- The quantization loops of `Encode` over a flat pixel sequence. -/
def quantList (palette : List C) : List C → List Nat × Nat → Option (List Nat × Nat)
  | [], st => some st
  | c :: cs, st => do
      let i ← slotIndex palette c (natRange 0 4)
      let rawData ← wr st.1 st.2 i
      quantList palette cs (rawData, (st.2 + 1) % 2 ^ 64)

/-- Decoding of a packed tile of width 8, as the round-trip law reads it: the
index at row `r`, column `n` is bit `7-n` of byte `2r` plus twice bit `7-n` of
byte `2r+1`. -/
def decodeIndex (data : List Nat) (r n : Nat) : Nat :=
  ((data.getD (2 * r) 0).testBit (7 - n)).toNat
    + 2 * ((data.getD (2 * r + 1) 0).testBit (7 - n)).toNat

/-- An image given by its rows of pixels, with bounds `(0, 0) - (w, number of rows)`. -/
def imageOfRows (w : Nat) (rows : List (List StdColor)) : Image StdColor :=
  { Bounds := ⟨0, 0, (w : Int), (rows.length : Int)⟩,
    At := fun x y => (rows.getD y.toNat []).getD x.toNat (StdColor.Gray 0) }

end QuantAux

/-! ## Auxiliary definitions for the tile walk -/

/-- The number of tiles of one row (or of rows): 0 when not even the first
fits, and otherwise `(surface - offset - dim) / (dim + spacing) + 1`. -/
def tileCount (dim offset spacing surface : Nat) : Nat :=
  if offset + dim > surface then 0 else (surface - offset - dim) / (dim + spacing) + 1

/-- The first `n` grid coordinates from `offset` with step `dim + spacing`. -/
def gridCoords (dim offset spacing n : Nat) : List Nat :=
  (List.range n).map (fun i => offset + i * (dim + spacing))

/-- The grid origins in row-major order: rows top to bottom, each row left to
right. -/
def gridOrigins (xs ys : List Nat) : List (Nat × Nat) :=
  ys.flatMap (fun y => xs.map (fun x => (x, y)))

/-- Appending to `acc`, in order, what `enc` yields for each tile origin. -/
def appendAll {β : Type} (enc : Nat → Nat → Option (List β)) :
    List (Nat × Nat) → List β → Option (List β)
  | [], acc => some acc
  | (x, y) :: os, acc => do
      let e ← enc x y
      appendAll enc os (acc ++ e)

/-! ## Example tiles and images -/

/-- Opaque white as a `color.RGBA`. -/
def white : StdColor := .RGBA 255 255 255 255

/-- Opaque black as a `color.RGBA`. -/
def black : StdColor := .RGBA 0 0 0 255

/-- Opaque red as a `color.RGBA`. -/
def red : StdColor := .RGBA 255 0 0 255

/-- Opaque green as a `color.RGBA`. -/
def green : StdColor := .RGBA 0 255 0 255

/-- Opaque blue as a `color.RGBA`. -/
def blue : StdColor := .RGBA 0 0 255 255

/-- Opaque yellow as a `color.RGBA`. -/
def yellow : StdColor := .RGBA 255 255 0 255

/-- A row of eight pixels alternating between `a` and `b`, starting with `a`. -/
def rowAB (a b : StdColor) : List StdColor := [a, b, a, b, a, b, a, b]

/-- The 8x8 checkerboard of `a` and `b` whose first pixel is `a`. -/
def checkerboard (a b : StdColor) : Image StdColor :=
  imageOfRows 8 [rowAB a b, rowAB b a, rowAB a b, rowAB b a, rowAB a b, rowAB b a, rowAB a b,
    rowAB b a]

/-- An 8x8 tile with five distinct colors: its first row is white, red, green,
blue, yellow, white, white, white, and the other seven rows are white. -/
def fiveColorTile : Image StdColor :=
  imageOfRows 8 ([white, red, green, blue, yellow, white, white, white]
    :: List.replicate 7 (List.replicate 8 white))

/-- An image of 8x8 pixels whose bounds are `(4, 4) - (12, 12)`, as the first
frame of a GIF placed at offset `(4, 4)` decodes: a checkerboard of white and
black. -/
def offsetImage : Image StdColor :=
  { Bounds := ⟨4, 4, 12, 12⟩
    At := fun x y => if (x + y) % 2 = 0 then white else black }

/-- A 16x16 image of four different 8x8 tiles.  Top left: the checkerboard
starting with white; top right: white with one black pixel, the second of its
first row; bottom left: the checkerboard starting with black; bottom right:
white with one black pixel, the third of its first row. -/
def fourTileImage : Image StdColor :=
  imageOfRows 16
    ([rowAB white black ++ white :: black :: List.replicate 6 white,
      rowAB black white ++ List.replicate 8 white,
      rowAB white black ++ List.replicate 8 white,
      rowAB black white ++ List.replicate 8 white,
      rowAB white black ++ List.replicate 8 white,
      rowAB black white ++ List.replicate 8 white,
      rowAB white black ++ List.replicate 8 white,
      rowAB black white ++ List.replicate 8 white,
      rowAB black white ++ white :: white :: black :: List.replicate 5 white,
      rowAB white black ++ List.replicate 8 white,
      rowAB black white ++ List.replicate 8 white,
      rowAB white black ++ List.replicate 8 white,
      rowAB black white ++ List.replicate 8 white,
      rowAB white black ++ List.replicate 8 white,
      rowAB black white ++ List.replicate 8 white,
      rowAB white black ++ List.replicate 8 white])

/-! ## Slices: lemmas -/

theorem wr_eq_some {α : Type} (a : List α) (i : Nat) (v : α) (h : i < a.length) :
    wr a i v = some (a.set i v) := by
  simp [wr, h]

theorem wr_some_iff {α : Type} (a b : List α) (i : Nat) (v : α) :
    wr a i v = some b ↔ i < a.length ∧ b = a.set i v := by
  unfold wr
  split <;> simp_all [eq_comm]

theorem getElem?_eq_some_getD {α : Type} (a : List α) (i : Nat) (d : α) (h : i < a.length) :
    a[i]? = some (a.getD i d) := by
  simp [List.getD, List.getElem?_eq_getElem h]

theorem getD_set_self {α : Type} (a : List α) (i : Nat) (v d : α) (h : i < a.length) :
    (a.set i v).getD i d = v := by
  simp [List.getD, List.getElem?_set, h]

theorem getD_set_ne {α : Type} (a : List α) (i j : Nat) (v d : α) (h : i ≠ j) :
    (a.set i v).getD j d = a.getD j d := by
  simp [List.getD, List.getElem?_set, h]

theorem mem_natRange (lo hi k : Nat) : k ∈ natRange lo hi ↔ lo ≤ k ∧ k < hi := by
  simp [natRange, List.mem_range'_1]
  omega

theorem nodup_natRange (lo hi : Nat) : (natRange lo hi).Nodup := by
  simp [natRange, List.nodup_range']

/-! ## Bit-plane packing: lemmas -/

theorem testBit_orAll (f : Nat → Nat) (ns : List Nat) (acc j : Nat) :
    (orAll f ns acc).testBit j = (acc.testBit j || ns.any (fun n => (f n).testBit j)) := by
  induction ns generalizing acc with
  | nil => simp [orAll]
  | cons n ns ih =>
    have := ih (f n ||| acc)
    simp only [orAll, List.foldl_cons] at this ⊢
    rw [this, Nat.testBit_lor]
    simp only [List.any_cons]
    cases (f n).testBit j <;> cases acc.testBit j <;> simp

theorem orAll_lt (f : Nat → Nat) (ns : List Nat) (acc : Nat) (hacc : acc < 256)
    (hf : ∀ n, f n < 256) : orAll f ns acc < 256 := by
  induction ns generalizing acc with
  | nil => simpa [orAll] using hacc
  | cons n ns ih =>
    have h : f n ||| acc < 2 ^ 8 := Nat.or_lt_two_pow (hf n) hacc
    simpa [orAll] using ih (f n ||| acc) h

theorem lowBit_lt (r n : Nat) : lowBit r n < 256 := Nat.mod_lt _ (by decide)

theorem highBit_lt (r n : Nat) : highBit r n < 256 := Nat.mod_lt _ (by decide)

theorem testBit_lowBit (r n j : Nat) (hn : n < 8) :
    (lowBit r n).testBit j = (decide (j = 7 - n) && r.testBit 0) := by
  have h1 : r &&& 1 = r % 2 := by simp
  have hb : r.testBit 0 = decide (r % 2 = 1) := by simp [Nat.testBit_zero]
  rw [hb]
  unfold lowBit
  rw [h1, Nat.shiftLeft_eq]
  rcases Nat.mod_two_eq_zero_or_one r with h | h
  · simp [h]
  · rw [h]
    have : 2 ^ (7 - n) < 256 := by
      have : 7 - n < 8 := by omega
      calc 2 ^ (7 - n) < 2 ^ 8 := Nat.pow_lt_pow_right (by decide) this
        _ = 256 := by norm_num
    rw [one_mul, Nat.mod_eq_of_lt this, Nat.testBit_two_pow]
    simp [eq_comm]

theorem testBit_highBit (r n j : Nat) (hn : n < 8) :
    (highBit r n).testBit j = (decide (j = 7 - n) && r.testBit 1) := by
  have h1 : (r &&& 2) >>> 1 = r / 2 % 2 := by
    apply Nat.eq_of_testBit_eq
    intro i
    rw [Nat.testBit_shiftRight, Nat.testBit_and]
    have e2 : (2 : Nat) = 2 ^ 1 := by norm_num
    have e3 : r / 2 % 2 = r / 2 % 2 ^ 1 := by norm_num
    rw [e3, Nat.testBit_mod_two_pow, Nat.testBit_div_two]
    nth_rewrite 1 [e2]
    rw [Nat.testBit_two_pow]
    by_cases hi : i = 0
    · subst hi; simp
    · have : ¬ (1 = 1 + i) := by omega
      have h' : ¬ (i < 1) := by omega
      simp [this, h']
  have hb : r.testBit 1 = decide (r / 2 % 2 = 1) := by
    rw [← Nat.testBit_div_two]; simp [Nat.testBit_zero]
  rw [hb]
  unfold highBit
  rw [h1, Nat.shiftLeft_eq]
  rcases Nat.mod_two_eq_zero_or_one (r / 2) with h | h
  · simp [h]
  · rw [h]
    have : 2 ^ (7 - n) < 256 := by
      have : 7 - n < 8 := by omega
      calc 2 ^ (7 - n) < 2 ^ 8 := Nat.pow_lt_pow_right (by decide) this
        _ = 256 := by norm_num
    rw [one_mul, Nat.mod_eq_of_lt this, Nat.testBit_two_pow]
    simp [eq_comm]

theorem packStep_eq (rawData data : List Nat) (i n : Nat)
    (hr : 8 * i + n < rawData.length) (hd : 2 * i + 1 < data.length) :
    packStep rawData data i n =
      some ((data.set (2 * i) (lowBit (rawData.getD (8 * i + n) 0) n ||| data.getD (2 * i) 0)).set
        (2 * i + 1) (highBit (rawData.getD (8 * i + n) 0) n ||| data.getD (2 * i + 1) 0)) := by
  have hd0 : 2 * i < data.length := by omega
  unfold packStep
  rw [getElem?_eq_some_getD rawData _ 0 hr, getElem?_eq_some_getD data _ 0 hd0]
  simp only [Option.bind_eq_bind, Option.some_bind]
  rw [wr_eq_some _ _ _ hd0]
  simp only [Option.some_bind]
  have hd1 : 2 * i + 1 < (data.set (2 * i)
      ((rawData.getD (8 * i + n) 0 &&& 1) <<< (7 - n) % 256 ||| data.getD (2 * i) 0)).length := by
    simpa using hd
  rw [getElem?_eq_some_getD _ _ 0 hd1, Option.some_bind, wr_eq_some _ _ _ hd1]
  rw [getD_set_ne _ _ _ _ _ (by omega)]
  rfl

theorem packRow_spec (rawData : List Nat) (i : Nat) :
    ∀ (ns : List Nat) (data : List Nat), (∀ n ∈ ns, 8 * i + n < rawData.length) →
      2 * i + 1 < data.length →
      ∃ out, packRow rawData i ns data = some out ∧ out.length = data.length ∧
        out.getD (2 * i) 0
          = orAll (fun n => lowBit (rawData.getD (8 * i + n) 0) n) ns (data.getD (2 * i) 0) ∧
        out.getD (2 * i + 1) 0
          = orAll (fun n => highBit (rawData.getD (8 * i + n) 0) n) ns (data.getD (2 * i + 1) 0) ∧
        ∀ j, j ≠ 2 * i → j ≠ 2 * i + 1 → out.getD j 0 = data.getD j 0 := by
  intro ns
  induction ns with
  | nil =>
    intro data _ _
    exact ⟨data, rfl, rfl, rfl, rfl, fun _ _ _ => rfl⟩
  | cons n ns ih =>
    intro data hr hd
    have hn : 8 * i + n < rawData.length := hr n (List.mem_cons_self _ _)
    have hd0 : 2 * i < data.length := by omega
    obtain ⟨out, ho, hl, h0, h1, hj⟩ := ih
      ((data.set (2 * i) (lowBit (rawData.getD (8 * i + n) 0) n ||| data.getD (2 * i) 0)).set
        (2 * i + 1) (highBit (rawData.getD (8 * i + n) 0) n ||| data.getD (2 * i + 1) 0))
      (fun m hm => hr m (List.mem_cons_of_mem _ hm)) (by simpa using hd)
    refine ⟨out, ?_, ?_, ?_, ?_, ?_⟩
    · simp only [packRow, packStep_eq rawData data i n hn hd, Option.bind_eq_bind,
        Option.some_bind]
      exact ho
    · simpa using hl
    · rw [h0, getD_set_ne _ _ _ _ _ (by omega), getD_set_self _ _ _ _ hd0]
      rfl
    · rw [h1, getD_set_self _ _ _ _ (by simpa using hd)]
      rfl
    · intro j hj0 hj1
      rw [hj j hj0 hj1, getD_set_ne _ _ _ _ _ (Ne.symm hj1), getD_set_ne _ _ _ _ _ (Ne.symm hj0)]

theorem packRows_spec (rawData : List Nat) :
    ∀ (is : List Nat) (data : List Nat), is.Nodup →
      (∀ i ∈ is, 8 * i + 7 < rawData.length ∧ 2 * i + 1 < data.length) →
      ∃ out, packRows rawData is data = some out ∧ out.length = data.length ∧
        (∀ i ∈ is,
          out.getD (2 * i) 0 = orAll (fun n => lowBit (rawData.getD (8 * i + n) 0) n)
            (natRange 0 8) (data.getD (2 * i) 0) ∧
          out.getD (2 * i + 1) 0 = orAll (fun n => highBit (rawData.getD (8 * i + n) 0) n)
            (natRange 0 8) (data.getD (2 * i + 1) 0)) ∧
        ∀ j, (∀ i ∈ is, j ≠ 2 * i ∧ j ≠ 2 * i + 1) → out.getD j 0 = data.getD j 0 := by
  intro is
  induction is with
  | nil =>
    intro data _ _
    exact ⟨data, rfl, rfl, fun _ h => absurd h (List.not_mem_nil _), fun _ _ => rfl⟩
  | cons i is ih =>
    intro data hnd hb
    have hi := hb i (List.mem_cons_self _ _)
    have hnd' := List.nodup_cons.mp hnd
    obtain ⟨d1, hd1, hl1, h10, h11, h1j⟩ := packRow_spec rawData i (natRange 0 8) data
      (fun n hn => by have := (mem_natRange 0 8 n).mp hn; omega) hi.2
    obtain ⟨out, ho, hl, hin, hout⟩ := ih d1 hnd'.2
      (fun k hk => by have := hb k (List.mem_cons_of_mem _ hk); rw [hl1]; exact this)
    refine ⟨out, ?_, by rw [hl, hl1], ?_, ?_⟩
    · simp only [packRows, hd1, Option.bind_eq_bind, Option.some_bind]
      exact ho
    · intro k hk
      rcases List.mem_cons.mp hk with rfl | hk
      · have hne : ∀ m ∈ is, k ≠ m := fun m hm h => hnd'.1 (h ▸ hm)
        rw [hout (2 * k) (fun m hm => by have := hne m hm; omega),
          hout (2 * k + 1) (fun m hm => by have := hne m hm; omega)]
        exact ⟨h10, h11⟩
      · have hne : k ≠ i := fun h => hnd'.1 (h ▸ hk)
        have := hin k hk
        rw [h1j (2 * k) (by omega) (by omega), h1j (2 * k + 1) (by omega) (by omega)] at this
        exact this
    · intro j hj
      rw [hout j (fun m hm => hj m (List.mem_cons_of_mem _ hm))]
      have := hj i (List.mem_cons_self _ _)
      exact h1j j this.1 this.2

theorem any_natRange8 (p : Nat → Bool) :
    (natRange 0 8).any p = (p 0 || p 1 || p 2 || p 3 || p 4 || p 5 || p 6 || p 7) := by
  simp [natRange, List.range', Bool.or_assoc]

theorem testBit_lowByte (g : Nat → Nat) (n : Nat) (hn : n < 8) :
    (orAll (fun m => lowBit (g m) m) (natRange 0 8) 0).testBit (7 - n) = (g n).testBit 0 := by
  rw [testBit_orAll, any_natRange8]
  simp only [testBit_lowBit _ _ _ (by decide : 0 < 8), testBit_lowBit _ _ _ (by decide : 1 < 8),
    testBit_lowBit _ _ _ (by decide : 2 < 8), testBit_lowBit _ _ _ (by decide : 3 < 8),
    testBit_lowBit _ _ _ (by decide : 4 < 8), testBit_lowBit _ _ _ (by decide : 5 < 8),
    testBit_lowBit _ _ _ (by decide : 6 < 8), testBit_lowBit _ _ _ (by decide : 7 < 8)]
  interval_cases n <;> simp

theorem testBit_highByte (g : Nat → Nat) (n : Nat) (hn : n < 8) :
    (orAll (fun m => highBit (g m) m) (natRange 0 8) 0).testBit (7 - n) = (g n).testBit 1 := by
  rw [testBit_orAll, any_natRange8]
  simp only [testBit_highBit _ _ _ (by decide : 0 < 8), testBit_highBit _ _ _ (by decide : 1 < 8),
    testBit_highBit _ _ _ (by decide : 2 < 8), testBit_highBit _ _ _ (by decide : 3 < 8),
    testBit_highBit _ _ _ (by decide : 4 < 8), testBit_highBit _ _ _ (by decide : 5 < 8),
    testBit_highBit _ _ _ (by decide : 6 < 8), testBit_highBit _ _ _ (by decide : 7 < 8)]
  interval_cases n <;> simp

/-- What `pack` returns on a buffer of `dimX*dimY` indices: `dimX*dimY/4` bytes,
of which the pair `2k`, `2k+1` (for `k < dimX*dimY/8`) is the low and high
bit-plane byte of the indices `8k .. 8k+7`. -/
theorem pack_spec (dimX dimY : Nat) (rawData : List Nat) (hov : dimX * dimY < 2 ^ 64)
    (hlen : rawData.length = dimX * dimY) :
    ∃ data, pack dimX dimY rawData = some data ∧ data.length = dimX * dimY / 4 ∧
      (∀ k, k < dimX * dimY / 8 →
        data.getD (2 * k) 0
          = orAll (fun n => lowBit (rawData.getD (8 * k + n) 0) n) (natRange 0 8) 0 ∧
        data.getD (2 * k + 1) 0
          = orAll (fun n => highBit (rawData.getD (8 * k + n) 0) n) (natRange 0 8) 0) ∧
      ∀ j, 2 * (dimX * dimY / 8) ≤ j → data.getD j 0 = 0 := by
  have hm : dimX * dimY % 2 ^ 64 = dimX * dimY := Nat.mod_eq_of_lt hov
  obtain ⟨out, ho, hl, hin, hout⟩ := packRows_spec rawData (natRange 0 (dimX * dimY / 8))
    (List.replicate (dimX * dimY / 4) 0) (nodup_natRange _ _)
    (fun i hi => by
      have := (mem_natRange _ _ _).mp hi
      rw [List.length_replicate]
      omega)
  have hz : ∀ j, (List.replicate (dimX * dimY / 4) 0).getD j 0 = 0 := by
    intro j
    simp [List.getD, List.getElem?_replicate]
    split <;> simp
  refine ⟨out, ?_, by simpa using hl, ?_, ?_⟩
  · unfold pack
    rw [hm]
    exact ho
  · intro k hk
    have := hin k ((mem_natRange _ _ _).mpr ⟨Nat.zero_le _, hk⟩)
    rw [hz, hz] at this
    exact this
  · intro j hj
    rw [hout j (fun i hi => by have := (mem_natRange _ _ _).mp hi; omega)]
    exact hz j

/-! ## Palette extraction: lemmas -/

section ExtractLemmas

set_option linter.unusedSectionVars false

variable {C : Type} [DecidableEq C] [GoColor C]

theorem scanRow_eq_scanList (tile : Image C) (y : Int) (xs : List Int) (st : List C × Nat) :
    scanRow tile y xs st = scanList (xs.map (fun x => tile.At x y)) st := by
  induction xs generalizing st with
  | nil => rfl
  | cons x xs ih =>
    simp only [scanRow, List.map_cons, scanList]
    congr 1
    funext s
    rw [ih]

theorem scanList_append (a b : List C) (st : List C × Nat) (h : st.2 < 4) :
    scanList (a ++ b) st
      = (scanList a st).bind (fun s => if s.2 ≥ 4 then some s else scanList b s) := by
  induction a generalizing st with
  | nil =>
    have : ¬ st.2 ≥ 4 := by omega
    simp [scanList, this]
  | cons c cs ih =>
    simp only [List.cons_append, scanList, Option.bind_eq_bind]
    cases hs : scanPixel c st with
    | none => simp
    | some s1 =>
      simp only [Option.some_bind]
      by_cases h4 : s1.2 ≥ 4
      · simp [h4]
      · simp only [h4, if_false]
        exact ih s1 (by omega)

theorem scanRows_eq_scanList (tile : Image C) (xs ys : List Int) (st : List C × Nat)
    (h : st.2 < 4) :
    scanRows tile xs ys st
      = scanList (ys.flatMap (fun y => xs.map (fun x => tile.At x y))) st := by
  induction ys generalizing st with
  | nil => rfl
  | cons y ys ih =>
    simp only [scanRows, List.flatMap_cons, Option.bind_eq_bind]
    rw [scanList_append _ _ _ h, scanRow_eq_scanList]
    congr 1
    funext s
    by_cases h4 : s.2 ≥ 4
    · simp [h4]
    · simp only [h4, if_false]
      exact ih s (by omega)

theorem colorFound_range' (palette : List C) (color : C) (n s : Nat)
    (h : s + n ≤ palette.length) :
    colorFound palette color (List.range' s n)
      = some (decide (color ∈ (palette.drop s).take n)) := by
  induction n generalizing s with
  | zero => simp [colorFound]
  | succ n ih =>
    have hs : s < palette.length := by omega
    have hd : palette.drop s = palette[s] :: palette.drop (s + 1) :=
      List.drop_eq_getElem_cons hs
    rw [List.range'_succ, hd]
    simp only [colorFound, List.getElem?_eq_getElem hs, Option.bind_eq_bind, Option.some_bind,
      List.take_succ_cons, List.mem_cons]
    by_cases hc : color = palette[s]
    · simp [hc]
    · simp only [hc, if_false, false_or]
      exact ih (s + 1) (by omega)

theorem padded_length (filled : List C) (h : filled.length ≤ 4) :
    (padded filled).length = 4 := by
  simp [padded]
  omega

theorem colorFound_padded (filled : List C) (color : C) (h : filled.length ≤ 4) :
    colorFound (padded filled) color (natRange 0 filled.length)
      = some (decide (color ∈ filled)) := by
  unfold natRange
  rw [Nat.sub_zero, colorFound_range' _ _ _ _ (by rw [padded_length _ h]; omega)]
  simp [padded]

theorem set_padded (filled : List C) (c : C) (h : filled.length < 4) :
    (padded filled).set filled.length c = padded (filled ++ [c]) := by
  unfold padded
  rw [List.set_append_right _ _ (Nat.le_refl _), Nat.sub_self]
  obtain ⟨m, hm⟩ : ∃ m, 4 - filled.length = m + 1 := ⟨3 - filled.length, by omega⟩
  have hm' : 4 - (filled ++ [c]).length = m := by
    simp only [List.length_append, List.length_singleton]
    omega
  rw [hm, hm', List.replicate_succ, List.set_cons_zero]
  simp

theorem scanPixel_padded (filled : List C) (c : C) (h : filled.length < 4) :
    scanPixel c (padded filled, filled.length)
      = some (padded (addNew filled c), (addNew filled c).length) := by
  unfold scanPixel
  simp only [colorFound_padded filled c (Nat.le_of_lt h), Option.bind_eq_bind, Option.some_bind]
  by_cases hc : c ∈ filled
  · simp [hc, addNew]
  · have hw : wr (padded filled) filled.length c = some (padded (filled ++ [c])) := by
      rw [wr_eq_some _ _ _ (by rw [padded_length _ (Nat.le_of_lt h)]; exact h), set_padded _ _ h]
    have hl : (filled.length + 1) % 256 = filled.length + 1 := Nat.mod_eq_of_lt (by omega)
    simp [hc, addNew, hw, hl]

theorem addNew_length_le (filled : List C) (c : C) :
    (addNew filled c).length ≤ filled.length + 1 := by
  unfold addNew
  split <;> simp

theorem foldl_addNew_extends (l : List C) (acc : List C) :
    ∃ t, l.foldl addNew acc = acc ++ t := by
  induction l generalizing acc with
  | nil => exact ⟨[], by simp⟩
  | cons c cs ih =>
    obtain ⟨t, ht⟩ := ih (addNew acc c)
    simp only [List.foldl_cons, ht]
    unfold addNew
    split
    · exact ⟨t, rfl⟩
    · exact ⟨c :: t, by simp⟩

theorem scanList_padded (l : List C) (filled : List C) (h : filled.length < 4) :
    scanList l (padded filled, filled.length)
      = some (padded ((l.foldl addNew filled).take 4), min 4 (l.foldl addNew filled).length) := by
  induction l generalizing filled with
  | nil =>
    simp only [scanList, List.foldl_nil]
    rw [List.take_of_length_le (by omega), Nat.min_eq_right (by omega)]
  | cons c cs ih =>
    simp only [scanList, scanPixel_padded filled c h, Option.bind_eq_bind, Option.some_bind,
      List.foldl_cons]
    have hle := addNew_length_le filled c
    by_cases h4 : (addNew filled c).length ≥ 4
    · have h4' : (addNew filled c).length = 4 := by omega
      obtain ⟨t, ht⟩ := foldl_addNew_extends cs (addNew filled c)
      simp only [h4, if_true]
      rw [ht, List.take_append_of_le_length (by omega), List.take_of_length_le (by omega),
        List.length_append, h4']
      simp
    · simp only [h4, if_false]
      exact ih (addNew filled c) (by omega)

theorem foldl_addNew_eq (l : List C) (acc : List C) :
    l.foldl addNew acc = acc ++ (firstSeen l).filter (fun d => decide (d ∉ acc)) := by
  induction l generalizing acc with
  | nil => simp [firstSeen]
  | cons c cs ih =>
    simp only [List.foldl_cons, firstSeen]
    rw [ih]
    by_cases hc : c ∈ acc
    · have h1 : addNew acc c = acc := by simp [addNew, hc]
      rw [h1, List.filter_cons]
      simp only [hc, not_true_eq_false, decide_False, Bool.false_eq_true, if_false,
        List.filter_filter]
      congr 1
      apply List.filter_congr
      intro x _
      by_cases hx : x ∈ acc
      · simp [hx]
      · have : x ≠ c := fun e => hx (e ▸ hc)
        simp [hx, this]
    · have h1 : addNew acc c = acc ++ [c] := by simp [addNew, hc]
      rw [h1, List.filter_cons]
      simp only [hc, not_false_eq_true, decide_True, if_true, List.filter_filter,
        List.append_assoc, List.singleton_append]
      congr 2
      apply List.filter_congr
      intro x _
      by_cases hx : x ∈ acc <;> by_cases hxc : x = c <;> simp [hx, hxc]

theorem foldl_addNew_nil (l : List C) : l.foldl addNew [] = firstSeen l := by
  rw [foldl_addNew_eq]
  simp

theorem mem_firstSeen (l : List C) (c : C) : c ∈ firstSeen l ↔ c ∈ l := by
  induction l with
  | nil => simp [firstSeen]
  | cons d ds ih =>
    simp only [firstSeen, List.mem_cons, List.mem_filter, ih, decide_eq_true_eq]
    by_cases h : c = d <;> simp [h]

theorem nodup_firstSeen (l : List C) : (firstSeen l).Nodup := by
  induction l with
  | nil => simp [firstSeen]
  | cons d ds ih =>
    simp only [firstSeen, List.nodup_cons, List.mem_filter, decide_eq_true_eq]
    exact ⟨fun h => h.2 rfl, ih.filter _⟩

theorem firstSeen_length (l : List C) : (firstSeen l).length = l.toFinset.card := by
  rw [← List.toFinset_card_of_nodup (nodup_firstSeen l)]
  congr 1
  ext c
  simp [mem_firstSeen]

theorem firstSeen_order (l : List C) :
    (firstSeen l).Pairwise (fun a b => l.indexOf a < l.indexOf b) := by
  induction l with
  | nil => simp [firstSeen]
  | cons d ds ih =>
    simp only [firstSeen, List.pairwise_cons, List.mem_filter, decide_eq_true_eq]
    constructor
    · intro b hb
      rw [List.indexOf_cons_self, List.indexOf_cons_ne _ (Ne.symm hb.2)]
      exact Nat.succ_pos _
    · have h1 : ((firstSeen ds).filter (fun x => decide (x ≠ d))).Pairwise
          (fun a b => ds.indexOf a < ds.indexOf b) := ih.filter _
      refine List.Pairwise.imp_of_mem ?_ h1
      intro a b ha hb hab
      have ha' : a ≠ d := by simpa using (List.mem_filter.mp ha).2
      have hb' : b ≠ d := by simpa using (List.mem_filter.mp hb).2
      rw [List.indexOf_cons_ne _ (Ne.symm ha'), List.indexOf_cons_ne _ (Ne.symm hb')]
      exact Nat.succ_lt_succ hab

theorem firstSeen_append_take (pre r : List C) (h : 4 ≤ (firstSeen pre).length) :
    (firstSeen (pre ++ r)).take 4 = (firstSeen pre).take 4 ∧
      4 ≤ (firstSeen (pre ++ r)).length := by
  obtain ⟨t, ht⟩ := foldl_addNew_extends r (firstSeen pre)
  have : firstSeen (pre ++ r) = firstSeen pre ++ t := by
    rw [← foldl_addNew_nil, List.foldl_append, foldl_addNew_nil, ht]
  rw [this, List.take_append_of_le_length h, List.length_append]
  exact ⟨rfl, by omega⟩

theorem extractPalette_eq (tile : Image C) :
    extractPalette tile
      = some ((firstSeen (pixels tile)).take 4
          ++ List.replicate (4 - (firstSeen (pixels tile)).length) GoColor.Gray0,
        min 4 (firstSeen (pixels tile)).length) := by
  have h := scanList_padded (pixels tile) ([] : List C) (by simp)
  rw [foldl_addNew_nil] at h
  unfold extractPalette
  rw [scanRows_eq_scanList _ _ _ _ (by simp)]
  have hp : (List.replicate 4 (GoColor.Gray0 : C), 0) = (padded ([] : List C), ([] : List C).length) := by
    simp [padded]
  rw [hp]
  unfold pixels at h ⊢
  rw [h]
  simp only [padded, List.length_take]
  have e : ∀ m : Nat, 4 - min 4 m = 4 - m := fun m => by omega
  rw [e]

end ExtractLemmas

/-! ## Palette ordering: lemmas -/

section OrderLemmas

set_option linter.unusedSectionVars false

variable {C : Type} [DecidableEq C] [GoColor C]

theorem key_bounds (c : C) :
    (key c).1 ≤ 196605 ∧ (key c).2.1 ≤ 131070 ∧ (key c).2.2 ≤ 65535 := by
  have h := GoColor.RGBA_le c
  simp only [key]
  omega

theorem brighter_iff_rank (x y : C) : brighter x y = true ↔ rank y < rank x := by
  have hx := GoColor.RGBA_le x
  have hy := GoColor.RGBA_le y
  unfold rank key brighter
  rcases ex : GoColor.RGBA x with ⟨r1, g1, b1, a1⟩
  rcases ey : GoColor.RGBA y with ⟨r0, g0, b0, a0⟩
  rw [ex] at hx
  rw [ey] at hy
  simp only at hx hy ⊢
  have m1 : (r1 + g1 + b1) % 2 ^ 32 = r1 + g1 + b1 := Nat.mod_eq_of_lt (by omega)
  have m0 : (r0 + g0 + b0) % 2 ^ 32 = r0 + g0 + b0 := Nat.mod_eq_of_lt (by omega)
  have n1 : (g1 + b1) % 2 ^ 32 = g1 + b1 := Nat.mod_eq_of_lt (by omega)
  have n0 : (g0 + b0) % 2 ^ 32 = g0 + b0 := Nat.mod_eq_of_lt (by omega)
  rw [m1, m0, n1, n0]
  split_ifs <;> simp <;> omega

theorem keyGe_iff_rank (x y : C) : keyGe (key x) (key y) ↔ rank y ≤ rank x := by
  have hx := key_bounds x
  have hy := key_bounds y
  unfold keyGe rank
  omega

theorem sortStep_eq_cx (l : List C) (h : l.length = 4) (j : Nat) (hj : j < 3) :
    sortStep l j = some (cx j l) := by
  match l, h with
  | [a, b, c, d], _ =>
    interval_cases j
    · cases h : brighter b a <;> simp [sortStep, cx, h, wr]
    · cases h : brighter c b <;> simp [sortStep, cx, h, wr]
    · cases h : brighter d c <;> simp [sortStep, cx, h, wr]

theorem cx_length (l : List C) (h : l.length = 4) (j : Nat) : (cx j l).length = 4 := by
  match l, h with
  | [a, b, c, d], _ =>
    match j with
    | 0 => simp only [cx]; split <;> rfl
    | 1 => simp only [cx]; split <;> rfl
    | 2 => simp only [cx]; split <;> rfl
    | _ + 3 => rfl

theorem orderPalette_false_eq (l : List C) (h : l.length = 4) :
    orderPalette false l = some (cx 0 (cx 1 (cx 0 (cx 2 (cx 1 (cx 0 l)))))) := by
  have e : natRange 0 4 = [0, 1, 2, 3] := rfl
  have e0 : natRange 0 (3 - 0) = [0, 1, 2] := rfl
  have e1 : natRange 0 (3 - 1) = [0, 1] := rfl
  have e2 : natRange 0 (3 - 2) = [0] := rfl
  have e3 : natRange 0 (3 - 3) = [] := rfl
  have l1 := cx_length l h 0
  have l2 := cx_length _ l1 1
  have l3 := cx_length _ l2 2
  have l4 := cx_length _ l3 0
  have l5 := cx_length _ l4 1
  simp only [orderPalette, Bool.false_eq_true, if_false, e, sortPasses, e0, e1, e2, e3, sortPass,
    sortStep_eq_cx l h 0 (by decide), sortStep_eq_cx _ l1 1 (by decide),
    sortStep_eq_cx _ l2 2 (by decide), sortStep_eq_cx _ l3 0 (by decide),
    sortStep_eq_cx _ l4 1 (by decide), sortStep_eq_cx _ l5 0 (by decide),
    Option.bind_eq_bind, Option.some_bind]

theorem orderPalette_true_eq (l : List C) (h : l.length = 4) :
    orderPalette true l = some (cx 1 (cx 2 (cx 1 l))) := by
  have e : natRange 0 4 = [0, 1, 2, 3] := rfl
  have e0 : natRange 1 (3 - 0) = [1, 2] := rfl
  have e1 : natRange 1 (3 - 1) = [1] := rfl
  have e2 : natRange 1 (3 - 2) = [] := rfl
  have e3 : natRange 1 (3 - 3) = [] := rfl
  have l1 := cx_length l h 1
  have l2 := cx_length _ l1 2
  simp only [orderPalette, if_true, e, sortPasses, e0, e1, e2, e3, sortPass,
    sortStep_eq_cx l h 1 (by decide), sortStep_eq_cx _ l1 2 (by decide),
    sortStep_eq_cx _ l2 1 (by decide), Option.bind_eq_bind, Option.some_bind]

theorem sorted_false (a b c d : C) :
    (cx 0 (cx 1 (cx 0 (cx 2 (cx 1 (cx 0 [a, b, c, d])))))).Pairwise
      (fun x y => rank y ≤ rank x) := by
  simp only [cx]
  split_ifs <;> simp only [cx] <;> split_ifs <;> simp only [cx] <;> split_ifs <;>
    simp only [cx] <;> split_ifs <;> simp only [cx] <;> split_ifs <;> simp only [cx] <;>
    split_ifs <;>
    simp only [brighter_iff_rank, List.pairwise_cons, List.mem_cons, List.mem_singleton,
      List.not_mem_nil, forall_eq_or_imp, forall_eq, List.Pairwise.nil, false_imp_iff,
      implies_true, and_true] at * <;> omega

end OrderLemmas

section OrderLemmas2

set_option linter.unusedSectionVars false

variable {C : Type} [DecidableEq C] [GoColor C]

theorem sorted_true (a b c d : C) :
    ∃ x y z, cx 1 (cx 2 (cx 1 [a, b, c, d])) = [a, x, y, z] ∧
      [x, y, z].Pairwise (fun x y => rank y ≤ rank x) ∧ [x, y, z].Perm [b, c, d] := by
  simp only [cx]
  split_ifs <;> simp only [cx] <;> split_ifs <;> simp only [cx] <;> split_ifs <;>
    refine ⟨_, _, _, rfl, ?_, ?_⟩ <;>
    first
    | (simp only [brighter_iff_rank, List.pairwise_cons, List.mem_cons, List.mem_singleton,
        List.not_mem_nil, forall_eq_or_imp, forall_eq, List.Pairwise.nil, false_imp_iff,
        implies_true, and_true] at *
       omega)
    | decide
    | exact List.Perm.refl _
    | exact List.Perm.swap _ _ _
    | exact (List.Perm.swap _ _ _).cons _
    | exact ((List.Perm.swap _ _ _).cons _).trans (List.Perm.swap _ _ _)
    | exact (List.Perm.swap _ _ _).trans ((List.Perm.swap _ _ _).cons _)
    | exact ((List.Perm.swap _ _ _).trans ((List.Perm.swap _ _ _).cons _)).trans
        (List.Perm.swap _ _ _)

theorem pairwise_drop_index {α : Type} (R : α → α → Prop) (out : List α) (m : Nat)
    (h : (out.drop m).Pairwise R) (i j : Nat) (ci cj : α) (hm : m ≤ i) (hij : i < j)
    (hi : out[i]? = some ci) (hj : out[j]? = some cj) : R ci cj := by
  obtain ⟨k, rfl⟩ : ∃ k, i = m + k := ⟨i - m, by omega⟩
  obtain ⟨k2, rfl⟩ : ∃ k2, j = m + k2 := ⟨j - m, by omega⟩
  rw [← List.getElem?_drop] at hi hj
  obtain ⟨hi1, hi2⟩ := List.getElem?_eq_some.mp hi
  obtain ⟨hj1, hj2⟩ := List.getElem?_eq_some.mp hj
  have := List.pairwise_iff_getElem.mp h k k2 hi1 hj1 (by omega)
  rw [hi2, hj2] at this
  exact this

theorem orderPalette_sorted (spriteMode : Bool) (palette : List C) (h : palette.length = 4) :
    ∃ out, orderPalette spriteMode palette = some out ∧ out.length = 4 ∧
      (out.drop (if spriteMode then 1 else 0)).Pairwise (fun x y => rank y ≤ rank x) := by
  match palette, h with
  | [a, b, c, d], h =>
    cases spriteMode with
    | false =>
      refine ⟨_, orderPalette_false_eq _ h, ?_, ?_⟩
      · exact cx_length _ (cx_length _ (cx_length _ (cx_length _ (cx_length _
          (cx_length _ h 0) 1) 2) 0) 1) 0
      · simpa using sorted_false a b c d
    | true =>
      obtain ⟨x, y, z, e, hs, -⟩ := sorted_true a b c d
      refine ⟨_, orderPalette_true_eq _ h, ?_, ?_⟩
      · rw [e]; rfl
      · rw [e]; simpa using hs

end OrderLemmas2

/-! ## Quantization: lemmas -/

section QuantLemmas

set_option linter.unusedSectionVars false

variable {C : Type} [DecidableEq C] [GoColor C]

theorem cx_perm (l : List C) (h : l.length = 4) (j : Nat) : (cx j l).Perm l := by
  match l, h with
  | [a, b, c, d], _ =>
    match j with
    | 0 => simp only [cx]; split
           · exact List.Perm.swap _ _ _
           · exact List.Perm.refl _
    | 1 => simp only [cx]; split
           · exact (List.Perm.swap _ _ _).cons _
           · exact List.Perm.refl _
    | 2 => simp only [cx]; split
           · exact ((List.Perm.swap _ _ _).cons _).cons _
           · exact List.Perm.refl _
    | _ + 3 => exact List.Perm.refl _

theorem cx_head (l : List C) (j : Nat) (hj : 0 < j) : (cx j l)[0]? = l[0]? := by
  match j, l with
  | 1, [a, b, c, d] => simp only [cx]; split <;> rfl
  | 2, [a, b, c, d] => simp only [cx]; split <;> rfl
  | 1, [] | 1, [_] | 1, [_, _] | 1, [_, _, _] | 1, _ :: _ :: _ :: _ :: _ :: _ => rfl
  | 2, [] | 2, [_] | 2, [_, _] | 2, [_, _, _] | 2, _ :: _ :: _ :: _ :: _ :: _ => rfl
  | _ + 3, _ => rfl

/-- The ordering step on a palette of four slots: it returns four slots, a
permutation of the input, sorted by descending key from slot `min` on, and
with the pin on slot 0 is untouched. -/
theorem orderPalette_spec (spriteMode : Bool) (palette : List C) (h : palette.length = 4) :
    ∃ out, orderPalette spriteMode palette = some out ∧ out.length = 4 ∧
      (out.drop (if spriteMode then 1 else 0)).Pairwise (fun x y => rank y ≤ rank x) ∧
      out.Perm palette ∧ (spriteMode = true → out[0]? = palette[0]?) := by
  obtain ⟨out, ho, hl, hs⟩ := orderPalette_sorted spriteMode palette h
  refine ⟨out, ho, hl, hs, ?_, ?_⟩
  · cases spriteMode with
    | false =>
      rw [orderPalette_false_eq _ h] at ho
      have l1 := cx_length palette h 0
      have l2 := cx_length _ l1 1
      have l3 := cx_length _ l2 2
      have l4 := cx_length _ l3 0
      have l5 := cx_length _ l4 1
      rw [← Option.some.inj ho]
      exact (cx_perm _ l5 0).trans ((cx_perm _ l4 1).trans ((cx_perm _ l3 0).trans
        ((cx_perm _ l2 2).trans ((cx_perm _ l1 1).trans (cx_perm _ h 0)))))
    | true =>
      rw [orderPalette_true_eq _ h] at ho
      have l1 := cx_length palette h 1
      have l2 := cx_length _ l1 2
      rw [← Option.some.inj ho]
      exact (cx_perm _ l2 1).trans ((cx_perm _ l1 2).trans (cx_perm _ h 1))
  · intro hm
    subst hm
    rw [orderPalette_true_eq _ h] at ho
    rw [← Option.some.inj ho, cx_head _ 1 (by decide), cx_head _ 2 (by decide),
      cx_head _ 1 (by decide)]

theorem slotIndex_eq (palette : List C) (h : palette.length = 4) (color : C) :
    slotIndex palette color (natRange 0 4) = some (palette.indexOf color) := by
  match palette, h with
  | [a, b, c, d], _ =>
    have e : natRange 0 4 = [0, 1, 2, 3] := rfl
    simp only [e, slotIndex, List.getElem?_cons_zero, List.getElem?_cons_succ,
      Option.bind_eq_bind, Option.some_bind]
    by_cases h0 : color = a
    · simp [h0]
    · rw [if_neg h0, List.indexOf_cons_ne _ (Ne.symm h0)]
      by_cases h1 : color = b
      · simp [h1]
      · rw [if_neg h1, List.indexOf_cons_ne _ (Ne.symm h1)]
        by_cases h2 : color = c
        · simp [h2]
        · rw [if_neg h2, List.indexOf_cons_ne _ (Ne.symm h2)]
          by_cases h3 : color = d
          · simp [h3]
          · rw [if_neg h3, List.indexOf_cons_ne _ (Ne.symm h3)]
            simp

theorem take_set_succ {α : Type} (raw : List α) (pc : Nat) (v : α) (h : pc < raw.length) :
    (raw.set pc v).take (pc + 1) = raw.take pc ++ [v] := by
  induction raw generalizing pc with
  | nil => simp at h
  | cons x xs ih =>
    cases pc with
    | zero => simp
    | succ pc =>
      simp only [List.length_cons, Nat.add_lt_add_iff_right] at h
      simp [ih pc h]

theorem drop_set_succ {α : Type} (raw : List α) (pc k : Nat) (v : α) :
    (raw.set pc v).drop (pc + 1 + k) = raw.drop (pc + 1 + k) := by
  induction raw generalizing pc with
  | nil => simp
  | cons x xs ih =>
    cases pc with
    | zero => simp [Nat.add_comm 1 k]
    | succ pc =>
      have e : pc + 1 + 1 + k = (pc + 1 + k) + 1 := by omega
      simp only [List.set_cons_succ, e, List.drop_succ_cons]
      exact ih pc

theorem quantRow_eq_quantList (tile : Image C) (palette : List C) (y : Int) (xs : List Int)
    (st : List Nat × Nat) :
    quantRow tile palette y xs st = quantList palette (xs.map (fun x => tile.At x y)) st := by
  induction xs generalizing st with
  | nil => rfl
  | cons x xs ih =>
    simp only [quantRow, List.map_cons, quantList]
    congr 1
    funext i
    congr 1
    funext r
    rw [ih]

theorem quantList_append (palette : List C) (a b : List C) (st : List Nat × Nat) :
    quantList palette (a ++ b) st = (quantList palette a st).bind (quantList palette b) := by
  induction a generalizing st with
  | nil => simp [quantList]
  | cons c cs ih =>
    simp only [List.cons_append, quantList, Option.bind_eq_bind]
    cases slotIndex palette c (natRange 0 4) with
    | none => simp
    | some i =>
      simp only [Option.some_bind]
      cases wr st.1 st.2 i with
      | none => simp
      | some r =>
        simp only [Option.some_bind]
        exact ih _

theorem quantRows_eq_quantList (tile : Image C) (palette : List C) (xs ys : List Int)
    (st : List Nat × Nat) :
    quantRows tile palette xs ys st
      = quantList palette (ys.flatMap (fun y => xs.map (fun x => tile.At x y))) st := by
  induction ys generalizing st with
  | nil => rfl
  | cons y ys ih =>
    simp only [quantRows, List.flatMap_cons, Option.bind_eq_bind]
    rw [quantList_append, quantRow_eq_quantList]
    congr 1
    funext s
    exact ih s

theorem quantList_spec (palette : List C) (h : palette.length = 4) (cs : List C) :
    ∀ (raw : List Nat) (pc : Nat), raw.length < 2 ^ 64 → pc + cs.length ≤ raw.length →
      quantList palette cs (raw, pc)
        = some (raw.take pc ++ cs.map (fun c => palette.indexOf c)
            ++ raw.drop (pc + cs.length), pc + cs.length) := by
  induction cs with
  | nil =>
    intro raw pc _ _
    simp [quantList]
  | cons c cs ih =>
    intro raw pc hlt hle
    simp only [List.length_cons] at hle
    have hpc : pc < raw.length := by omega
    have hmod : (pc + 1) % 2 ^ 64 = pc + 1 := Nat.mod_eq_of_lt (by omega)
    simp only [quantList, slotIndex_eq palette h, Option.bind_eq_bind, Option.some_bind,
      wr_eq_some _ _ _ hpc, hmod]
    rw [ih _ _ (by simpa using hlt) (by simp only [List.length_set]; omega)]
    have e2 : pc + (cs.length + 1) = pc + 1 + cs.length := by omega
    rw [take_set_succ _ _ _ hpc, drop_set_succ, List.length_cons, e2]
    simp

theorem quantize_eq (dimX dimY : Nat) (tile : Image C) (palette : List C)
    (h : palette.length = 4) (hsz : (pixels tile).length ≤ dimX * dimY % 2 ^ 64) :
    quantize dimX dimY tile palette
      = some ((pixels tile).map (fun c => palette.indexOf c)
          ++ List.replicate (dimX * dimY % 2 ^ 64 - (pixels tile).length) 0) := by
  unfold quantize
  rw [quantRows_eq_quantList]
  have hlt : (List.replicate (dimX * dimY % 2 ^ 64) 0).length < 2 ^ 64 := by
    rw [List.length_replicate]
    exact Nat.mod_lt _ (by norm_num)
  have := quantList_spec palette h (pixels tile) (List.replicate (dimX * dimY % 2 ^ 64) 0) 0 hlt
    (by rw [List.length_replicate]; omega)
  unfold pixels at this hsz ⊢
  rw [this]
  simp

end QuantLemmas

/-! ## The stages of `Encode` put together: lemmas -/

section EncodeLemmas

set_option linter.unusedSectionVars false

variable {C : Type} [DecidableEq C] [GoColor C]

theorem indexOf_spec (l : List C) (c : C) (h : c ∈ l) :
    l.indexOf c < l.length ∧ l[l.indexOf c]? = some c ∧
      ∀ k, k < l.indexOf c → l[k]? ≠ some c := by
  induction l with
  | nil => simp at h
  | cons x xs ih =>
    by_cases hx : x = c
    · subst hx
      simp
    · have hc : c ∈ xs := by
        rcases List.mem_cons.mp h with e | e
        · exact absurd e.symm hx
        · exact e
      obtain ⟨h1, h2, h3⟩ := ih hc
      rw [List.indexOf_cons_ne _ hx]
      refine ⟨by simpa using h1, by simpa using h2, ?_⟩
      intro k hk
      cases k with
      | zero => simpa using hx
      | succ k => simpa using h3 k (by omega)

theorem flatMap_uniform {α β : Type} (f : α → List β) (W : Nat) (ys : List α)
    (hW : ∀ y ∈ ys, (f y).length = W) :
    (ys.flatMap f).length = ys.length * W ∧
      ∀ r n (hr : r < ys.length), n < W → (ys.flatMap f)[r * W + n]? = (f ys[r])[n]? := by
  induction ys with
  | nil => simp
  | cons y ys ih =>
    have hy : (f y).length = W := hW y (List.mem_cons_self _ _)
    obtain ⟨ih1, ih2⟩ := ih (fun z hz => hW z (List.mem_cons_of_mem _ hz))
    constructor
    · simp only [List.flatMap_cons, List.length_append, hy, ih1, List.length_cons]
      rw [Nat.add_mul, Nat.one_mul, Nat.add_comm]
    · intro r n hr hn
      cases r with
      | zero =>
        simp only [List.flatMap_cons, Nat.zero_mul, Nat.zero_add, List.getElem_cons_zero]
        exact List.getElem?_append_left (by omega)
      | succ r =>
        simp only [List.flatMap_cons, List.getElem_cons_succ]
        rw [List.getElem?_append_right (by rw [hy, Nat.add_mul]; omega)]
        have e : (r + 1) * W + n - (f y).length = r * W + n := by
          rw [hy, Nat.add_mul]; omega
        rw [e]
        exact ih2 r n (by simpa using hr) hn

theorem intRange_length (lo hi : Int) : (intRange lo hi).length = (hi - lo).toNat := by
  unfold intRange
  rw [List.length_map, List.length_range]

theorem intRange_getElem (lo hi : Int) (k : Nat) (h : k < (intRange lo hi).length) :
    (intRange lo hi)[k] = lo + (k : Int) := by
  unfold intRange
  rw [List.getElem_map, List.getElem_range]

/-- The pixel sequence of a tile has width times height entries, and the entry
at position `r * width + n` is the pixel at column `n` of row `r`. -/
theorem pixels_spec (tile : Image C) :
    (pixels tile).length
        = (tile.Bounds.MaxY - tile.Bounds.MinY).toNat * (tile.Bounds.MaxX - tile.Bounds.MinX).toNat ∧
      ∀ r n, r < (tile.Bounds.MaxY - tile.Bounds.MinY).toNat →
        n < (tile.Bounds.MaxX - tile.Bounds.MinX).toNat →
        (pixels tile)[r * (tile.Bounds.MaxX - tile.Bounds.MinX).toNat + n]?
          = some (tile.At (tile.Bounds.MinX + (n : Int)) (tile.Bounds.MinY + (r : Int))) := by
  obtain ⟨h1, h2⟩ := flatMap_uniform
    (fun y => (intRange tile.Bounds.MinX tile.Bounds.MaxX).map (fun x => tile.At x y))
    (tile.Bounds.MaxX - tile.Bounds.MinX).toNat (intRange tile.Bounds.MinY tile.Bounds.MaxY)
    (fun y _ => by simp [intRange_length])
  constructor
  · unfold pixels
    rw [h1, intRange_length]
  · intro r n hr hn
    unfold pixels
    rw [h2 r n (by rw [intRange_length]; exact hr) hn, intRange_getElem]
    rw [List.getElem?_map, List.getElem?_eq_getElem (by rw [intRange_length]; exact hn),
      intRange_getElem]
    rfl

theorem pixels_length_of_dims (dimX dimY : Nat) (tile : Image C)
    (hW : tile.Bounds.MaxX - tile.Bounds.MinX = (dimX : Int))
    (hH : tile.Bounds.MaxY - tile.Bounds.MinY = (dimY : Int)) :
    (pixels tile).length = dimX * dimY := by
  rw [(pixels_spec tile).1, hW, hH, Int.toNat_ofNat, Int.toNat_ofNat, Nat.mul_comm]

/-- The slots of the palette before ordering, as the extraction leaves them. -/
theorem extracted_length (tile : Image C) :
    ((firstSeen (pixels tile)).take 4
      ++ List.replicate (4 - (firstSeen (pixels tile)).length) (GoColor.Gray0 : C)).length = 4 := by
  simp only [List.length_append, List.length_take, List.length_replicate]
  omega

/-- The stages of `Encode` on a tile that fits the index buffer: the palette is
extracted and ordered, every pixel gets the index of the first slot equal to
its color (4 when there is none), and the result is the packing of these. -/
theorem Encode_stages (dimX dimY : Nat) (spriteMode : Bool) (tile : Image C)
    (hsz : (pixels tile).length ≤ dimX * dimY % 2 ^ 64) :
    ∃ st palette rawData, extractPalette tile = some st ∧
      st.1 = (firstSeen (pixels tile)).take 4
        ++ List.replicate (4 - (firstSeen (pixels tile)).length) GoColor.Gray0 ∧
      orderPalette spriteMode st.1 = some palette ∧ palette.length = 4 ∧
      palette.Perm st.1 ∧ (spriteMode = true → palette[0]? = st.1[0]?) ∧
      quantize dimX dimY tile palette = some rawData ∧
      rawData = (pixels tile).map (fun c => palette.indexOf c)
        ++ List.replicate (dimX * dimY % 2 ^ 64 - (pixels tile).length) 0 ∧
      Encode dimX dimY spriteMode tile = pack dimX dimY rawData := by
  obtain ⟨palette, ho, hl, -, hp, h0⟩ := orderPalette_spec spriteMode _ (extracted_length tile)
  refine ⟨_, palette, _, extractPalette_eq tile, rfl, ho, hl, hp, h0,
    quantize_eq dimX dimY tile palette hl hsz, rfl, ?_⟩
  unfold Encode
  rw [extractPalette_eq tile]
  simp only [Option.bind_eq_bind, Option.some_bind]
  rw [ho]
  simp only [Option.some_bind]
  rw [quantize_eq dimX dimY tile palette hl hsz]
  rfl

theorem mem_extracted_of_card_le (tile : Image C) (h4 : (pixels tile).toFinset.card ≤ 4) (c : C)
    (hc : c ∈ pixels tile) :
    c ∈ (firstSeen (pixels tile)).take 4
      ++ List.replicate (4 - (firstSeen (pixels tile)).length) (GoColor.Gray0 : C) := by
  rw [← firstSeen_length] at h4
  rw [List.take_of_length_le h4]
  exact List.mem_append_left _ ((mem_firstSeen _ _).mpr hc)

end EncodeLemmas

section EncodeLemmas2

set_option linter.unusedSectionVars false

variable {C : Type} [DecidableEq C] [GoColor C]

/-- On a tile that fits the buffers `Encode` returns `dimX*dimY/4` bytes, the
packing of the index buffer. -/
theorem Encode_fits (dimX dimY : Nat) (spriteMode : Bool) (tile : Image C)
    (hov : dimX * dimY < 2 ^ 64) (hsz : (pixels tile).length ≤ dimX * dimY) :
    ∃ out, Encode dimX dimY spriteMode tile = some out ∧ out.length = dimX * dimY / 4 := by
  have hm : dimX * dimY % 2 ^ 64 = dimX * dimY := Nat.mod_eq_of_lt hov
  obtain ⟨st, palette, rawData, -, -, -, -, -, -, -, hr, hE⟩ :=
    Encode_stages dimX dimY spriteMode tile (by rw [hm]; exact hsz)
  have hlen : rawData.length = dimX * dimY := by
    rw [hr, hm, List.length_append, List.length_map, List.length_replicate]
    omega
  obtain ⟨data, hp, hl, -, -⟩ := pack_spec dimX dimY rawData hov hlen
  exact ⟨data, by rw [hE, hp], hl⟩

theorem two_bits (v : Nat) (h : v < 4) :
    (v.testBit 0).toNat + 2 * (v.testBit 1).toNat = v := by
  interval_cases v <;> decide

end EncodeLemmas2

/-! ## The tile walk: lemmas -/

section WalkLemmas

theorem tileCount_zero_iff (dim offset spacing surface : Nat) :
    tileCount dim offset spacing surface = 0 ↔ surface < offset + dim := by
  unfold tileCount
  split <;> simp <;> omega

theorem tileCount_step (dim offset spacing surface : Nat) (hd : 1 ≤ dim)
    (h : offset + dim ≤ surface) :
    tileCount dim offset spacing surface
      = tileCount dim (offset + (dim + spacing)) spacing surface + 1 := by
  have hs : 0 < dim + spacing := by omega
  unfold tileCount
  rw [if_neg (by omega)]
  by_cases h2 : offset + (dim + spacing) + dim > surface
  · rw [if_pos h2, Nat.div_eq_of_lt (by omega)]
  · rw [if_neg h2, Nat.div_eq_sub_div hs (by omega)]
    have : surface - offset - dim - (dim + spacing) = surface - (offset + (dim + spacing)) - dim := by
      omega
    rw [this]

theorem gridCoords_succ (dim offset spacing n : Nat) :
    gridCoords dim offset spacing (n + 1)
      = offset :: gridCoords dim (offset + (dim + spacing)) spacing n := by
  unfold gridCoords
  rw [List.range_succ_eq_map, List.map_cons, List.map_map]
  congr 1
  · simp
  · apply List.map_congr_left
    intro i _
    simp only [Function.comp, Nat.succ_eq_add_one, Nat.add_mul, Nat.one_mul]
    omega

theorem lt_tileCount_iff (dim offset spacing surface i : Nat) (hd : 1 ≤ dim) :
    i < tileCount dim offset spacing surface ↔ offset + i * (dim + spacing) + dim ≤ surface := by
  have hs : 0 < dim + spacing := by omega
  unfold tileCount
  split
  · constructor
    · intro h; omega
    · intro h
      have : 0 ≤ i * (dim + spacing) := Nat.zero_le _
      omega
  · rw [Nat.lt_succ_iff, Nat.le_div_iff_mul_le hs]
    omega

theorem mem_gridCoords (dim offset spacing n x : Nat) :
    x ∈ gridCoords dim offset spacing n ↔ ∃ i, i < n ∧ x = offset + i * (dim + spacing) := by
  unfold gridCoords
  simp only [List.mem_map, List.mem_range]
  constructor
  · rintro ⟨i, hi, rfl⟩
    exact ⟨i, hi, rfl⟩
  · rintro ⟨i, hi, rfl⟩
    exact ⟨i, hi, rfl⟩

theorem gridCoords_sorted (dim offset spacing n : Nat) (hd : 1 ≤ dim) :
    (gridCoords dim offset spacing n).Pairwise (fun a b => a < b) := by
  unfold gridCoords
  rw [List.pairwise_map]
  refine (List.pairwise_lt_range n).imp ?_
  intro a b hab
  have : a * (dim + spacing) < b * (dim + spacing) :=
    Nat.mul_lt_mul_of_pos_right hab (by omega)
  omega

theorem mem_gridOrigins (xs ys : List Nat) (x y : Nat) :
    (x, y) ∈ gridOrigins xs ys ↔ x ∈ xs ∧ y ∈ ys := by
  unfold gridOrigins
  simp only [List.mem_flatMap, List.mem_map, Prod.mk.injEq]
  constructor
  · rintro ⟨y', hy, x', hx, rfl, rfl⟩
    exact ⟨hx, hy⟩
  · rintro ⟨hx, hy⟩
    exact ⟨y, hy, x, hx, rfl, rfl⟩

theorem gridOrigins_length (xs ys : List Nat) :
    (gridOrigins xs ys).length = xs.length * ys.length := by
  unfold gridOrigins
  induction ys with
  | nil => simp
  | cons y ys ih =>
    rw [List.flatMap_cons, List.length_append, ih, List.length_map, List.length_cons]
    rw [Nat.mul_succ, Nat.add_comm]

theorem gridOrigins_sorted (xs ys : List Nat) (hx : xs.Pairwise (fun a b => a < b))
    (hy : ys.Pairwise (fun a b => a < b)) :
    (gridOrigins xs ys).Pairwise (fun a b => a.2 < b.2 ∨ (a.2 = b.2 ∧ a.1 < b.1)) := by
  unfold gridOrigins
  rw [List.pairwise_flatMap]
  constructor
  · intro y _
    rw [List.pairwise_map]
    exact hx.imp (fun h => Or.inr ⟨rfl, h⟩)
  · refine hy.imp ?_
    intro y1 y2 h12 a ha b hb
    obtain ⟨_, _, rfl⟩ := List.mem_map.mp ha
    obtain ⟨_, _, rfl⟩ := List.mem_map.mp hb
    exact Or.inl h12

theorem appendAll_append {β : Type} (enc : Nat → Nat → Option (List β))
    (a b : List (Nat × Nat)) (acc : List β) :
    appendAll enc (a ++ b) acc = (appendAll enc a acc).bind (appendAll enc b) := by
  induction a generalizing acc with
  | nil => simp [appendAll]
  | cons o os ih =>
    obtain ⟨x, y⟩ := o
    simp only [List.cons_append, appendAll, Option.bind_eq_bind]
    cases enc x y with
    | none => simp
    | some e =>
      simp only [Option.some_bind]
      exact ih _

theorem walkRow_eq {β : Type} (dimX spacingX maxX : Nat) (enc : Nat → Nat → Option (List β))
    (y : Nat) (hd : 1 ≤ dimX) (hov : maxX + dimX + spacingX < 2 ^ 64) :
    ∀ (n x fuel : Nat) (acc : List β), tileCount dimX x spacingX maxX = n →
      x + dimX < 2 ^ 64 → n < fuel →
      walkRow dimX spacingX maxX (fun x => enc x y) fuel x acc
        = appendAll enc ((gridCoords dimX x spacingX n).map (fun x => (x, y))) acc := by
  intro n
  induction n with
  | zero =>
    intro x fuel acc hn hx hf
    obtain ⟨f, rfl⟩ : ∃ f, fuel = f + 1 := ⟨fuel - 1, by omega⟩
    have hlt := (tileCount_zero_iff _ _ _ _).mp hn
    have hc : ¬ (x + dimX + (2 ^ 64 - 1)) % 2 ^ 64 < maxX := by omega
    simp only [walkRow, hc, if_false]
    rfl
  | succ n ih =>
    intro x fuel acc hn hx hf
    obtain ⟨f, rfl⟩ : ∃ f, fuel = f + 1 := ⟨fuel - 1, by omega⟩
    have hle : x + dimX ≤ maxX := by
      by_contra hcon
      have := (tileCount_zero_iff dimX x spacingX maxX).mpr (by omega)
      omega
    have hstep := tileCount_step dimX x spacingX maxX hd hle
    have hc : (x + dimX + (2 ^ 64 - 1)) % 2 ^ 64 < maxX := by omega
    have hx' : (x + (dimX + spacingX)) % 2 ^ 64 = x + (dimX + spacingX) :=
      Nat.mod_eq_of_lt (by omega)
    simp only [walkRow, hc, if_true, hx', gridCoords_succ, List.map_cons, appendAll,
      Option.bind_eq_bind]
    cases enc x y with
    | none => simp
    | some e =>
      simp only [Option.some_bind]
      exact ih _ f _ (by omega) (by omega) (by omega)

theorem walk_eq {β : Type} (dimX dimY offsetX spacingX spacingY maxX maxY : Nat)
    (enc : Nat → Nat → Option (List β)) (fuelX : Nat)
    (hdx : 1 ≤ dimX) (hdy : 1 ≤ dimY) (hox : offsetX + dimX < 2 ^ 64)
    (hmx : maxX + dimX + spacingX < 2 ^ 64) (hmy : maxY + dimY + spacingY < 2 ^ 64)
    (hfx : tileCount dimX offsetX spacingX maxX < fuelX) :
    ∀ (n y fuel : Nat) (acc : List β), tileCount dimY y spacingY maxY = n →
      y + dimY < 2 ^ 64 → n < fuel →
      walk dimX dimY offsetX spacingX spacingY maxX maxY enc fuelX fuel y acc
        = appendAll enc
            (gridOrigins (gridCoords dimX offsetX spacingX (tileCount dimX offsetX spacingX maxX))
              (gridCoords dimY y spacingY n)) acc := by
  intro n
  induction n with
  | zero =>
    intro y fuel acc hn hy hf
    obtain ⟨f, rfl⟩ : ∃ f, fuel = f + 1 := ⟨fuel - 1, by omega⟩
    have hlt := (tileCount_zero_iff _ _ _ _).mp hn
    have hc : ¬ (y + dimY + (2 ^ 64 - 1)) % 2 ^ 64 < maxY := by omega
    simp only [walk, hc, if_false]
    rfl
  | succ n ih =>
    intro y fuel acc hn hy hf
    obtain ⟨f, rfl⟩ : ∃ f, fuel = f + 1 := ⟨fuel - 1, by omega⟩
    have hle : y + dimY ≤ maxY := by
      by_contra hcon
      have := (tileCount_zero_iff dimY y spacingY maxY).mpr (by omega)
      omega
    have hstep := tileCount_step dimY y spacingY maxY hdy hle
    have hc : (y + dimY + (2 ^ 64 - 1)) % 2 ^ 64 < maxY := by omega
    have hy' : (y + (dimY + spacingY)) % 2 ^ 64 = y + (dimY + spacingY) :=
      Nat.mod_eq_of_lt (by omega)
    have hrow := walkRow_eq dimX spacingX maxX enc y hdx hmx _ offsetX fuelX acc rfl hox hfx
    simp only [walk, hc, if_true, hy', gridCoords_succ, Option.bind_eq_bind, hrow]
    have hg : ∀ (xs : List Nat) (y0 : Nat) (ys : List Nat),
        gridOrigins xs (y0 :: ys) = xs.map (fun x => (x, y0)) ++ gridOrigins xs ys := by
      intro xs y0 ys
      simp [gridOrigins]
    rw [hg, appendAll_append]
    cases appendAll enc
        ((gridCoords dimX offsetX spacingX (tileCount dimX offsetX spacingX maxX)).map
          (fun x => (x, y))) acc with
    | none => simp
    | some a =>
      simp only [Option.some_bind]
      exact ih _ f _ (by omega) (by omega) (by omega)

theorem appendAll_record (os : List (Nat × Nat)) (acc : List (Nat × Nat)) :
    appendAll (fun x y => some [(x, y)]) os acc = some (acc ++ os) := by
  induction os generalizing acc with
  | nil => simp [appendAll]
  | cons o os ih =>
    obtain ⟨x, y⟩ := o
    simp only [appendAll, Option.bind_eq_bind, Option.some_bind]
    rw [ih]
    simp

/-- Without overflow and with enough fuel, the walk of `main` visits the grid
origins, row by row. -/
theorem tileOrigins_eq (dimX dimY offsetX offsetY spacingX spacingY maxX maxY : Nat)
    (hdx : 1 ≤ dimX) (hdy : 1 ≤ dimY)
    (hox : offsetX + dimX < 2 ^ 64) (hoy : offsetY + dimY < 2 ^ 64)
    (hmx : maxX + dimX + spacingX < 2 ^ 64) (hmy : maxY + dimY + spacingY < 2 ^ 64)
    (fuel : Nat) (hfx : tileCount dimX offsetX spacingX maxX < fuel)
    (hfy : tileCount dimY offsetY spacingY maxY < fuel) :
    tileOrigins dimX dimY offsetX offsetY spacingX spacingY maxX maxY fuel
      = some (gridOrigins
          (gridCoords dimX offsetX spacingX (tileCount dimX offsetX spacingX maxX))
          (gridCoords dimY offsetY spacingY (tileCount dimY offsetY spacingY maxY))) := by
  unfold tileOrigins
  rw [walk_eq dimX dimY offsetX spacingX spacingY maxX maxY _ fuel hdx hdy hox hmx hmy hfx _
    offsetY fuel [] rfl hoy hfy, appendAll_record]
  simp

theorem mem_grid_iff (dimX dimY offsetX offsetY spacingX spacingY maxX maxY : Nat)
    (hdx : 1 ≤ dimX) (hdy : 1 ≤ dimY) (x y : Nat) :
    (x, y) ∈ gridOrigins
        (gridCoords dimX offsetX spacingX (tileCount dimX offsetX spacingX maxX))
        (gridCoords dimY offsetY spacingY (tileCount dimY offsetY spacingY maxY))
      ↔ ∃ i j, x = offsetX + i * (dimX + spacingX) ∧ y = offsetY + j * (dimY + spacingY) ∧
          x + dimX ≤ maxX ∧ y + dimY ≤ maxY := by
  rw [mem_gridOrigins, mem_gridCoords, mem_gridCoords]
  constructor
  · rintro ⟨⟨i, hi, rfl⟩, ⟨j, hj, rfl⟩⟩
    exact ⟨i, j, rfl, rfl, (lt_tileCount_iff _ _ _ _ _ hdx).mp hi,
      (lt_tileCount_iff _ _ _ _ _ hdy).mp hj⟩
  · rintro ⟨i, j, rfl, rfl, hx, hy⟩
    exact ⟨⟨i, (lt_tileCount_iff _ _ _ _ _ hdx).mpr hx, rfl⟩,
      ⟨j, (lt_tileCount_iff _ _ _ _ _ hdy).mpr hy, rfl⟩⟩

end WalkLemmas

/-! ## The output stream of `main`: lemmas -/

section MainLemmas

set_option linter.unusedSectionVars false

variable {C : Type} [DecidableEq C] [GoColor C]

theorem toInt_of_lt (v : Nat) (h : v < 2 ^ 63) : toInt v = (v : Int) := by
  have h1 : v % 2 ^ 64 = v := Nat.mod_eq_of_lt (by omega)
  unfold toInt
  rw [h1, if_pos h]

theorem toUint_natCast (v : Nat) (h : v < 2 ^ 63) : toUint (v : Int) = v := by
  unfold toUint
  omega

theorem ite_empty_size (r1 : Rectangle) (A B : Nat)
    (h : (r1.MaxY - r1.MinY).toNat ≤ A ∧ (r1.MaxX - r1.MinX).toNat ≤ B) :
    (((if r1.Empty then (⟨0, 0, 0, 0⟩ : Rectangle) else r1).MaxY
        - (if r1.Empty then (⟨0, 0, 0, 0⟩ : Rectangle) else r1).MinY).toNat ≤ A) ∧
      (((if r1.Empty then (⟨0, 0, 0, 0⟩ : Rectangle) else r1).MaxX
        - (if r1.Empty then (⟨0, 0, 0, 0⟩ : Rectangle) else r1).MinX).toNat ≤ B) := by
  split
  · simp
  · exact h

theorem Intersect_size (r s : Rectangle) :
    ((r.Intersect s).MaxY - (r.Intersect s).MinY).toNat ≤ (r.MaxY - r.MinY).toNat ∧
      ((r.Intersect s).MaxX - (r.Intersect s).MinX).toNat ≤ (r.MaxX - r.MinX).toNat :=
  ite_empty_size
    { MinX := if r.MinX < s.MinX then s.MinX else r.MinX
      MinY := if r.MinY < s.MinY then s.MinY else r.MinY
      MaxX := if r.MaxX > s.MaxX then s.MaxX else r.MaxX
      MaxY := if r.MaxY > s.MaxY then s.MaxY else r.MaxY } _ _
    ⟨by simp only; split <;> split <;> omega, by simp only; split <;> split <;> omega⟩

theorem SubImage_size (p : Image C) (r : Rectangle) :
    ((SubImage p r).Bounds.MaxY - (SubImage p r).Bounds.MinY).toNat ≤ (r.MaxY - r.MinY).toNat ∧
      ((SubImage p r).Bounds.MaxX - (SubImage p r).Bounds.MinX).toNat
        ≤ (r.MaxX - r.MinX).toNat := by
  unfold SubImage
  split
  · simp
  · exact Intersect_size r p.Bounds

/-- A tile cut out at `(x, y)` has at most `dimX * dimY` pixels. -/
theorem tileAt_fits (dimX dimY : Nat) (tileset : Image C) (x y : Nat)
    (hx : x + dimX < 2 ^ 63) (hy : y + dimY < 2 ^ 63) :
    (pixels (tileAt dimX dimY tileset x y)).length ≤ dimX * dimY := by
  have e1 : (x + dimX) % 2 ^ 64 = x + dimX := Nat.mod_eq_of_lt (by omega)
  have e2 : (y + dimY) % 2 ^ 64 = y + dimY := Nat.mod_eq_of_lt (by omega)
  rw [(pixels_spec _).1, Nat.mul_comm dimX dimY]
  unfold tileAt
  rw [e1, e2, toInt_of_lt x (by omega), toInt_of_lt y (by omega), toInt_of_lt _ hx,
    toInt_of_lt _ hy]
  have hr := SubImage_size tileset
    (Rect (x : Int) (y : Int) ((x + dimX : Nat) : Int) ((y + dimY : Nat) : Int))
  have hR : Rect (x : Int) (y : Int) ((x + dimX : Nat) : Int) ((y + dimY : Nat) : Int)
      = ⟨(x : Int), (y : Int), ((x + dimX : Nat) : Int), ((y + dimY : Nat) : Int)⟩ := by
    have hx0 : ¬ ((x : Int) > ((x + dimX : Nat) : Int)) := by push_cast; omega
    have hy0 : ¬ ((y : Int) > ((y + dimY : Nat) : Int)) := by push_cast; omega
    simp only [Rect, if_neg hx0, if_neg hy0]
  rw [hR] at hr ⊢
  simp only at hr
  have h1 : (((x + dimX : Nat) : Int) - (x : Int)).toNat = dimX := by push_cast; omega
  have h2 : (((y + dimY : Nat) : Int) - (y : Int)).toNat = dimY := by push_cast; omega
  rw [h1, h2] at hr
  exact Nat.mul_le_mul hr.1 hr.2

theorem appendAll_uniform {β : Type} (enc : Nat → Nat → Option (List β)) (L : Nat)
    (os : List (Nat × Nat)) (acc : List β)
    (h : ∀ o ∈ os, ∃ e, enc o.1 o.2 = some e ∧ e.length = L) :
    ∃ encs, List.Forall₂ (fun o e => enc o.1 o.2 = some e) os encs ∧
      appendAll enc os acc = some (acc ++ encs.flatten) ∧
      encs.flatten.length = os.length * L := by
  induction os generalizing acc with
  | nil => exact ⟨[], List.Forall₂.nil, by simp [appendAll], by simp⟩
  | cons o os ih =>
    obtain ⟨e, he, hl⟩ := h o (List.mem_cons_self _ _)
    obtain ⟨encs, hf, ha, hlen⟩ := ih (acc ++ e) (fun o' ho' => h o' (List.mem_cons_of_mem _ ho'))
    obtain ⟨x, y⟩ := o
    refine ⟨e :: encs, List.Forall₂.cons he hf, ?_, ?_⟩
    · simp only [appendAll, Option.bind_eq_bind]
      simp only at he
      rw [he, Option.some_bind, ha]
      simp
    · rw [List.flatten_cons, List.length_append, hlen, hl, List.length_cons, Nat.succ_mul,
        Nat.add_comm]

end MainLemmas

/-! ## Palette ordering: fixed points and stability -/

section OrderLemmas3

set_option linter.unusedSectionVars false

variable {C : Type} [DecidableEq C] [GoColor C]

theorem rank_Gray0 : rank (GoColor.Gray0 : C) = 0 := by
  simp [rank, key, GoColor.RGBA_Gray0]

theorem brighter_Gray0 (x : C) : brighter (GoColor.Gray0 : C) x = false := by
  have h := brighter_iff_rank (GoColor.Gray0 : C) x
  rw [rank_Gray0] at h
  cases hb : brighter (GoColor.Gray0 : C) x with
  | false => rfl
  | true => exact absurd (h.mp hb) (Nat.not_lt_zero _)

theorem not_brighter_of_keyGe (x y : C) (h : keyGe (key x) (key y)) : brighter y x = false := by
  have h1 := (keyGe_iff_rank x y).mp h
  have h2 := brighter_iff_rank y x
  cases hb : brighter y x with
  | false => rfl
  | true => have := h2.mp hb; omega

theorem key_ne_of_brighter (x y : C) (h : brighter x y = true) : key x ≠ key y := by
  intro e
  have h1 := (brighter_iff_rank x y).mp h
  have h2 : rank x = rank y := by unfold rank; rw [e]
  omega

/-- A palette whose non-pinned slots are already in descending key order is a
fixed point of the ordering step. -/
theorem orderPalette_fixed (spriteMode : Bool) (a b c d : C)
    (hbc : keyGe (key b) (key c)) (hcd : keyGe (key c) (key d))
    (hab : spriteMode = false → keyGe (key a) (key b)) :
    orderPalette spriteMode [a, b, c, d] = some [a, b, c, d] := by
  have h1 := not_brighter_of_keyGe _ _ hbc
  have h2 := not_brighter_of_keyGe _ _ hcd
  cases spriteMode with
  | false =>
    have h0 := not_brighter_of_keyGe _ _ (hab rfl)
    rw [orderPalette_false_eq [a, b, c, d] rfl]
    simp [cx, h0, h1, h2]
  | true =>
    rw [orderPalette_true_eq [a, b, c, d] rfl]
    simp [cx, h1, h2]

/-- One compare-and-swap keeps, for every key, the subsequence of the slots
with that key: it swaps only colors of different keys. -/
theorem cx_stable (l : List C) (h : l.length = 4) (j m : Nat) (hm : m ≤ j) (hm1 : m ≤ 1)
    (k : Nat × Nat × Nat) :
    ((cx j l).drop m).filter (fun x => decide (key x = k))
      = (l.drop m).filter (fun x => decide (key x = k)) := by
  match l, h with
  | [a, b, c, d], _ =>
    match j with
    | 0 =>
      obtain rfl : m = 0 := by omega
      simp only [cx]
      split
      · rename_i hb
        have hne := key_ne_of_brighter _ _ hb
        by_cases ha : key a = k <;> by_cases hb' : key b = k <;>
          simp_all [List.filter_cons]
      · rfl
    | 1 =>
      simp only [cx]
      split
      · rename_i hb
        have hne := key_ne_of_brighter _ _ hb
        have hm' : m = 0 ∨ m = 1 := by omega
        rcases hm' with rfl | rfl <;>
          by_cases hc : key c = k <;> by_cases hb' : key b = k <;>
          simp_all [List.filter_cons]
      · rfl
    | 2 =>
      simp only [cx]
      split
      · rename_i hb
        have hne := key_ne_of_brighter _ _ hb
        have hm' : m = 0 ∨ m = 1 := by omega
        rcases hm' with rfl | rfl <;>
          by_cases hc : key c = k <;> by_cases hd : key d = k <;>
          simp_all [List.filter_cons]
      · rfl
    | _ + 3 => rfl

theorem orderPalette_stable_aux (spriteMode : Bool) (palette : List C) (h : palette.length = 4)
    (k : Nat × Nat × Nat) :
    ∃ out, orderPalette spriteMode palette = some out ∧
      (out.drop (if spriteMode then 1 else 0)).filter (fun x => decide (key x = k))
        = (palette.drop (if spriteMode then 1 else 0)).filter (fun x => decide (key x = k)) := by
  cases spriteMode with
  | false =>
    have l1 := cx_length palette h 0
    have l2 := cx_length _ l1 1
    have l3 := cx_length _ l2 2
    have l4 := cx_length _ l3 0
    have l5 := cx_length _ l4 1
    refine ⟨_, orderPalette_false_eq _ h, ?_⟩
    simp only [Bool.false_eq_true, if_false]
    rw [cx_stable _ l5 0 0 (by decide) (by decide), cx_stable _ l4 1 0 (by decide) (by decide),
      cx_stable _ l3 0 0 (by decide) (by decide), cx_stable _ l2 2 0 (by decide) (by decide),
      cx_stable _ l1 1 0 (by decide) (by decide), cx_stable _ h 0 0 (by decide) (by decide)]
  | true =>
    have l1 := cx_length palette h 1
    have l2 := cx_length _ l1 2
    refine ⟨_, orderPalette_true_eq _ h, ?_⟩
    simp only [if_true]
    rw [cx_stable _ l2 1 1 (by decide) (by decide), cx_stable _ l1 2 1 (by decide) (by decide),
      cx_stable _ h 1 1 (by decide) (by decide)]

end OrderLemmas3

/-! ## Tiles with few colors: lemmas -/

section FewColors

set_option linter.unusedSectionVars false

variable {C : Type} [DecidableEq C] [GoColor C]

/-- One compare-and-swap leaves trailing `color.Gray{0}` slots where they are:
no color is brighter than `color.Gray{0}`. -/
theorem cx_keeps_tail (l : List C) (h : l.length = 4) (j k : Nat)
    (hl : l.drop k = List.replicate (4 - k) (GoColor.Gray0 : C)) :
    (cx j l).drop k = List.replicate (4 - k) (GoColor.Gray0 : C) := by
  by_cases hk : 4 ≤ k
  · rw [List.drop_of_length_le (by rw [cx_length l h j]; exact hk)]
    rw [List.drop_of_length_le (by rw [h]; exact hk)] at hl
    exact hl
  · match l, h with
    | [a, b, c, e], _ =>
      have hk' : k < 4 := by omega
      match j with
      | 0 =>
        interval_cases k <;> simp [List.replicate] at hl <;>
          simp [cx, hl, brighter_Gray0, List.replicate] <;> split <;> simp
      | 1 =>
        interval_cases k <;> simp [List.replicate] at hl <;>
          simp [cx, hl, brighter_Gray0, List.replicate]
        split <;> simp
      | 2 =>
        interval_cases k <;> simp [List.replicate] at hl <;>
          simp [cx, hl, brighter_Gray0, List.replicate]
      | _ + 3 => exact hl

/-- The chain of compare-and-swaps of the ordering step leaves the
`color.Gray{0}` slots of a freshly extracted palette where they are: behind the
discovered colors. -/
theorem cx_chain_padded (spriteMode : Bool) (d : List C) (hk : d.length ≤ 4) :
    ((if spriteMode then cx 1 (cx 2 (cx 1 (padded d)))
      else cx 0 (cx 1 (cx 0 (cx 2 (cx 1 (cx 0 (padded d))))))).drop d.length)
      = List.replicate (4 - d.length) (GoColor.Gray0 : C) := by
  have l0 := padded_length d hk
  have h0 : (padded d).drop d.length = List.replicate (4 - d.length) (GoColor.Gray0 : C) := by
    unfold padded
    rw [List.drop_left]
  cases spriteMode with
  | false =>
    have l1 := cx_length _ l0 0
    have l2 := cx_length _ l1 1
    have l3 := cx_length _ l2 2
    have l4 := cx_length _ l3 0
    have l5 := cx_length _ l4 1
    simp only [Bool.false_eq_true, if_false]
    exact cx_keeps_tail _ l5 0 _ (cx_keeps_tail _ l4 1 _ (cx_keeps_tail _ l3 0 _
      (cx_keeps_tail _ l2 2 _ (cx_keeps_tail _ l1 1 _ (cx_keeps_tail _ l0 0 _ h0)))))
  | true =>
    have l1 := cx_length _ l0 1
    have l2 := cx_length _ l1 2
    simp only [if_true]
    exact cx_keeps_tail _ l2 1 _ (cx_keeps_tail _ l1 2 _ (cx_keeps_tail _ l0 1 _ h0))

/-- The ordering step on a freshly extracted palette, `d` followed by
`color.Gray{0}` slots: the discovered colors stay in the first slots, permuted,
and the `color.Gray{0}` slots stay last. -/
theorem orderPalette_padded (spriteMode : Bool) (d : List C) (hk : d.length ≤ 4) :
    ∃ out, orderPalette spriteMode (padded d) = some out ∧ out.length = 4 ∧
      out.drop d.length = List.replicate (4 - d.length) (GoColor.Gray0 : C) ∧
      (out.take d.length).Perm d := by
  have h4 := padded_length d hk
  obtain ⟨out, ho, hl, -, hp, -⟩ := orderPalette_spec spriteMode (padded d) h4
  have hd : out.drop d.length = List.replicate (4 - d.length) (GoColor.Gray0 : C) := by
    have hc := cx_chain_padded spriteMode d hk
    cases spriteMode with
    | false =>
      rw [orderPalette_false_eq _ h4] at ho
      rw [← Option.some.inj ho]
      simpa using hc
    | true =>
      rw [orderPalette_true_eq _ h4] at ho
      rw [← Option.some.inj ho]
      simpa using hc
  refine ⟨out, ho, hl, hd, ?_⟩
  have hsplit : out = out.take d.length ++ List.replicate (4 - d.length) (GoColor.Gray0 : C) := by
    rw [← hd, List.take_append_drop]
  rw [hsplit] at hp
  unfold padded at hp
  exact (List.perm_append_right_iff _).mp hp

theorem indexOf_lt_of_mem_take (l : List C) (c : C) (k : Nat) (h : c ∈ l.take k) :
    l.indexOf c < k := by
  obtain ⟨i, hi, hget⟩ := List.getElem_of_mem h
  rw [List.length_take] at hi
  rw [List.getElem_take] at hget
  have hmem : c ∈ l := hget ▸ List.getElem_mem _
  obtain ⟨-, -, hleast⟩ := indexOf_spec l c hmem
  by_contra hcon
  have := hleast i (by omega)
  rw [List.getElem?_eq_getElem (by omega), hget] at this
  exact this rfl

theorem firstSeen_take_four (l : List C) (h4 : l.toFinset.card ≤ 4) :
    (firstSeen l).take 4 ++ List.replicate (4 - (firstSeen l).length) (GoColor.Gray0 : C)
      = padded (firstSeen l) := by
  rw [← firstSeen_length] at h4
  rw [List.take_of_length_le h4]
  rfl

end FewColors

/-! ## The bytes of `Encode` on a tile of exactly `dimX` by `dimY` pixels -/

section EncodeBytes

set_option linter.unusedSectionVars false

variable {C : Type} [DecidableEq C] [GoColor C]

theorem orAll_congr (f g : Nat → Nat) (ns : List Nat) (acc : Nat)
    (h : ∀ n ∈ ns, f n = g n) : orAll f ns acc = orAll g ns acc := by
  induction ns generalizing acc with
  | nil => rfl
  | cons n ns ih =>
    simp only [orAll, List.foldl_cons] at ih ⊢
    rw [h n (List.mem_cons_self _ _)]
    exact ih _ (fun m hm => h m (List.mem_cons_of_mem _ hm))

/-- All stages of `Encode` return on a tile of exactly `dimX * dimY` pixels;
the index buffer holds for each pixel the first slot equal to its color (4 when
there is none), and each pair of output bytes is the or of the bit-plane bits
of eight indices. -/
theorem Encode_bytes (dimX dimY : Nat) (spriteMode : Bool) (tile : Image C)
    (hov : dimX * dimY < 2 ^ 64) (hlen : (pixels tile).length = dimX * dimY) :
    ∃ st palette rawData data, extractPalette tile = some st ∧
      st.1 = (firstSeen (pixels tile)).take 4
        ++ List.replicate (4 - (firstSeen (pixels tile)).length) GoColor.Gray0 ∧
      orderPalette spriteMode st.1 = some palette ∧ palette.length = 4 ∧
      palette.Perm st.1 ∧
      quantize dimX dimY tile palette = some rawData ∧
      rawData = (pixels tile).map (fun c => palette.indexOf c) ∧
      pack dimX dimY rawData = some data ∧
      Encode dimX dimY spriteMode tile = some data ∧
      data.length = dimX * dimY / 4 ∧
      (∀ k, k < dimX * dimY / 8 →
        data[2 * k]? = some (orAll (fun n => lowBit (rawData.getD (8 * k + n) 0) n)
          (natRange 0 8) 0) ∧
        data[2 * k + 1]? = some (orAll (fun n => highBit (rawData.getD (8 * k + n) 0) n)
          (natRange 0 8) 0)) ∧
      ∀ j, 2 * (dimX * dimY / 8) ≤ j → j < dimX * dimY / 4 → data[j]? = some 0 := by
  have hm : dimX * dimY % 2 ^ 64 = dimX * dimY := Nat.mod_eq_of_lt hov
  obtain ⟨st, palette, rawData, he, hst, ho, hl, hp, -, hq, hr, hE⟩ :=
    Encode_stages dimX dimY spriteMode tile (by rw [hm, hlen])
  have hr' : rawData = (pixels tile).map (fun c => palette.indexOf c) := by
    rw [hr, hm, hlen, Nat.sub_self]
    simp
  have hrl : rawData.length = dimX * dimY := by rw [hr', List.length_map, hlen]
  obtain ⟨data, hpk, hdl, hin, hout⟩ := pack_spec dimX dimY rawData hov hrl
  refine ⟨st, palette, rawData, data, he, hst, ho, hl, hp, hq, hr', hpk, by rw [hE, hpk], hdl,
    ?_, ?_⟩
  · intro k hk
    have := hin k hk
    rw [← this.1, ← this.2]
    exact ⟨getElem?_eq_some_getD _ _ _ (by omega), getElem?_eq_some_getD _ _ _ (by omega)⟩
  · intro j hj hj2
    rw [← hout j hj]
    exact getElem?_eq_some_getD _ _ _ (by omega)

theorem firstSeen_const (l : List C) (c : C) (hne : l ≠ []) (h : ∀ p ∈ l, p = c) :
    firstSeen l = [c] := by
  induction l with
  | nil => exact absurd rfl hne
  | cons p ps ih =>
    have hp : p = c := h p (List.mem_cons_self _ _)
    subst hp
    by_cases hps : ps = []
    · subst hps
      rfl
    · rw [firstSeen, ih hps (fun q hq => h q (List.mem_cons_of_mem _ hq))]
      simp

theorem firstSeen_two (x y : C) (rest : List C) (hxy : x ≠ y)
    (h : ∀ p ∈ rest, p = x ∨ p = y) : firstSeen (x :: y :: rest) = [x, y] := by
  have hnil : ((firstSeen rest).filter (fun d => decide (d ≠ y))).filter
      (fun d => decide (d ≠ x)) = [] := by
    rw [List.filter_filter, List.filter_eq_nil_iff]
    intro a ha
    rcases h a ((mem_firstSeen _ _).mp ha) with e | e <;> simp [e]
  simp only [firstSeen, List.filter_cons, hnil]
  simp [Ne.symm hxy]

theorem pack_zeros (dimX dimY : Nat) (hov : dimX * dimY < 2 ^ 64) :
    pack dimX dimY (List.replicate (dimX * dimY) 0)
      = some (List.replicate (dimX * dimY / 4) 0) := by
  obtain ⟨data, hpk, hdl, hin, hout⟩ := pack_spec dimX dimY (List.replicate (dimX * dimY) 0) hov
    (List.length_replicate _ _)
  rw [hpk]
  congr 1
  have hz : ∀ i, (List.replicate (dimX * dimY) 0).getD i 0 = 0 := by
    intro i
    simp [List.getD, List.getElem?_replicate]
    split <;> simp
  have hlow : orAll (fun n => lowBit 0 n) (natRange 0 8) 0 = 0 := by decide
  have hhigh : orAll (fun n => highBit 0 n) (natRange 0 8) 0 = 0 := by decide
  have hall : ∀ j, data.getD j 0 = 0 := by
    intro j
    by_cases hj : 2 * (dimX * dimY / 8) ≤ j
    · exact hout j hj
    · have hk : j / 2 < dimX * dimY / 8 := by omega
      have := hin (j / 2) hk
      simp only [hz] at this
      rw [hlow, hhigh] at this
      rcases Nat.mod_two_eq_zero_or_one j with e | e
      · have : 2 * (j / 2) = j := by omega
        simp_all
      · have : 2 * (j / 2) + 1 = j := by omega
        simp_all
  apply List.ext_getElem
  · rw [hdl, List.length_replicate]
  · intro i h1 h2
    have e := getElem?_eq_some_getD data i 0 h1
    rw [List.getElem?_eq_getElem h1] at e
    rw [Option.some.inj e, hall i]
    simp

end EncodeBytes

/-! ## Further lemmas: termination of the walk, the pin per tile -/

section MiscLemmas

set_option linter.unusedSectionVars false

variable {C : Type} [DecidableEq C] [GoColor C]

theorem appendAll_isSome {β : Type} (enc : Nat → Nat → Option (List β))
    (henc : ∀ x y, (enc x y).isSome = true) (os : List (Nat × Nat)) (acc : List β) :
    ∃ out, appendAll enc os acc = some out := by
  induction os generalizing acc with
  | nil => exact ⟨acc, rfl⟩
  | cons o os ih =>
    obtain ⟨x, y⟩ := o
    obtain ⟨e, he⟩ := Option.isSome_iff_exists.mp (henc x y)
    obtain ⟨out, ho⟩ := ih (acc ++ e)
    exact ⟨out, by simp only [appendAll, he, Option.bind_eq_bind, Option.some_bind]; exact ho⟩

/-- With the pin on, the first pixel's color of a tile is in slot 0 of the
ordered palette, and every pixel of that color gets index 0. -/
theorem pinned_slot_zero (dimX dimY : Nat) (tile : Image C) (c0 : C) (rest : List C)
    (hne : pixels tile = c0 :: rest) (hsz : (pixels tile).length ≤ dimX * dimY % 2 ^ 64) :
    ∃ st palette rawData, extractPalette tile = some st ∧
      orderPalette true st.1 = some palette ∧
      quantize dimX dimY tile palette = some rawData ∧
      palette[0]? = some c0 ∧
      ∀ (p : Nat), (pixels tile)[p]? = some c0 → rawData[p]? = some 0 := by
  obtain ⟨st, palette, rawData, he, hst, ho, hl, -, h0, hq, hr, -⟩ :=
    Encode_stages dimX dimY true tile hsz
  have hp0 : palette[0]? = some c0 := by
    rw [h0 rfl, hst, hne]
    simp [firstSeen]
  refine ⟨st, palette, rawData, he, ho, hq, hp0, ?_⟩
  intro p hp
  obtain ⟨hlen, -⟩ := List.getElem?_eq_some.mp hp
  rw [hr, List.getElem?_append_left (by simpa using hlen), List.getElem?_map, hp]
  match palette, hl, hp0 with
  | [a, b, c, d], _, hp0 =>
    have : a = c0 := by simpa using hp0
    subst this
    simp

end MiscLemmas

/-! ## The output stream and the pin on encoded bytes: further lemmas -/

section MainLemmas2

set_option linter.unusedSectionVars false

variable {C : Type} [DecidableEq C] [GoColor C]

theorem appendAll_forall2 {β : Type} (enc : Nat → Nat → Option (List β)) (L : Nat)
    (os : List (Nat × Nat)) (acc : List β)
    (h : ∀ o ∈ os, ∃ e, enc o.1 o.2 = some e ∧ e.length = L) :
    ∃ encs, List.Forall₂ (fun o e => enc o.1 o.2 = some e ∧ e.length = L) os encs ∧
      appendAll enc os acc = some (acc ++ encs.flatten) ∧
      encs.length = os.length ∧
      encs.flatten.length = os.length * L := by
  induction os generalizing acc with
  | nil => exact ⟨[], List.Forall₂.nil, by simp [appendAll], rfl, by simp⟩
  | cons o os ih =>
    obtain ⟨e, he, hl⟩ := h o (List.mem_cons_self _ _)
    obtain ⟨encs, hf, ha, hn, hlen⟩ :=
      ih (acc ++ e) (fun o' ho' => h o' (List.mem_cons_of_mem _ ho'))
    obtain ⟨x, y⟩ := o
    refine ⟨e :: encs, List.Forall₂.cons ⟨he, hl⟩ hf, ?_, by simp [hn], ?_⟩
    · simp only [appendAll, Option.bind_eq_bind]
      simp only at he
      rw [he, Option.some_bind, ha]
      simp
    · rw [List.flatten_cons, List.length_append, hlen, hl, List.length_cons, Nat.succ_mul,
        Nat.add_comm]

end MainLemmas2

/-! ## C1: bit-plane packing -/

/-- C1. Bit-plane packing in `Encode`: on an index buffer of `dimX*dimY` entries the
packing loop returns `dimX*dimY/4` bytes, and for every `k < dimX*dimY/8` and
`n < 8`, bit `7-n` of byte `2k` is bit 0 of the index at position `8k+n` and
bit `7-n` of byte `2k+1` is bit 1 of that index; both bytes are below 256, so
no other bit is set.  For an 8-pixel-wide tile there are `2*dimY` bytes and `k`
is the pixel row `r`: byte `2r` is the low and byte `2r+1` the high plane of the
indices at `r*dimX+n`. -/
theorem pack_bit_planes (dimX dimY : Nat) (rawData : List Nat)
    (hov : dimX * dimY < 2 ^ 64) (hlen : rawData.length = dimX * dimY) :
    ∃ data, pack dimX dimY rawData = some data ∧ data.length = dimX * dimY / 4 ∧
      (∀ k n, k < dimX * dimY / 8 → n < 8 →
        ∃ r lo hi, rawData[8 * k + n]? = some r ∧
          data[2 * k]? = some lo ∧ data[2 * k + 1]? = some hi ∧ lo < 256 ∧ hi < 256 ∧
          lo.testBit (7 - n) = r.testBit 0 ∧ hi.testBit (7 - n) = r.testBit 1) ∧
      (dimX = 8 → data.length = 2 * dimY ∧
        ∀ r n, r < dimY → n < 8 →
          ∃ v lo hi, rawData[r * dimX + n]? = some v ∧
            data[2 * r]? = some lo ∧ data[2 * r + 1]? = some hi ∧
            lo.testBit (7 - n) = v.testBit 0 ∧ hi.testBit (7 - n) = v.testBit 1) := by
  obtain ⟨data, hp, hl, hin, -⟩ := pack_spec dimX dimY rawData hov hlen
  have key : ∀ k n, k < dimX * dimY / 8 → n < 8 →
      ∃ r lo hi, rawData[8 * k + n]? = some r ∧
        data[2 * k]? = some lo ∧ data[2 * k + 1]? = some hi ∧ lo < 256 ∧ hi < 256 ∧
        lo.testBit (7 - n) = r.testBit 0 ∧ hi.testBit (7 - n) = r.testBit 1 := by
    intro k n hk hn
    have h := hin k hk
    refine ⟨rawData.getD (8 * k + n) 0, data.getD (2 * k) 0, data.getD (2 * k + 1) 0,
      getElem?_eq_some_getD _ _ _ (by omega), getElem?_eq_some_getD _ _ _ (by omega),
      getElem?_eq_some_getD _ _ _ (by omega), ?_, ?_, ?_, ?_⟩
    · rw [h.1]
      exact orAll_lt _ _ _ (by decide) (fun m => lowBit_lt _ _)
    · rw [h.2]
      exact orAll_lt _ _ _ (by decide) (fun m => highBit_lt _ _)
    · rw [h.1]
      exact testBit_lowByte (fun m => rawData.getD (8 * k + m) 0) n hn
    · rw [h.2]
      exact testBit_highByte (fun m => rawData.getD (8 * k + m) 0) n hn
  refine ⟨data, hp, hl, key, ?_⟩
  intro h8
  subst h8
  refine ⟨by omega, ?_⟩
  intro r n hr hn
  obtain ⟨v, lo, hi, h1, h2, h3, -, -, h4, h5⟩ := key r n (by omega) hn
  exact ⟨v, lo, hi, by rw [Nat.mul_comm r 8]; exact h1, h2, h3, h4, h5⟩

/-- C1, at a concrete buffer: one row of eight indices. -/
theorem pack_bit_planes_witness :
    8 * 1 < 2 ^ 64 ∧ [0, 1, 2, 3, 3, 2, 1, 0].length = 8 * 1 ∧
    ∃ data, pack 8 1 [0, 1, 2, 3, 3, 2, 1, 0] = some data ∧ data.length = 8 * 1 / 4 ∧
      (∀ k n, k < 8 * 1 / 8 → n < 8 →
        ∃ r lo hi, [0, 1, 2, 3, 3, 2, 1, 0][8 * k + n]? = some r ∧
          data[2 * k]? = some lo ∧ data[2 * k + 1]? = some hi ∧ lo < 256 ∧ hi < 256 ∧
          lo.testBit (7 - n) = r.testBit 0 ∧ hi.testBit (7 - n) = r.testBit 1) ∧
      (8 = 8 → data.length = 2 * 1 ∧
        ∀ r n, r < 1 → n < 8 →
          ∃ v lo hi, [0, 1, 2, 3, 3, 2, 1, 0][r * 8 + n]? = some v ∧
            data[2 * r]? = some lo ∧ data[2 * r + 1]? = some hi ∧
            lo.testBit (7 - n) = v.testBit 0 ∧ hi.testBit (7 - n) = v.testBit 1) :=
  ⟨by norm_num, rfl, pack_bit_planes 8 1 [0, 1, 2, 3, 3, 2, 1, 0] (by norm_num) rfl⟩

/-! ## C4: palette extraction -/

section C4

variable {C : Type} [DecidableEq C] [GoColor C]

/-- C4. Palette extraction in `Encode`: with `d` the distinct colors of the tile's
row-major pixel sequence in first-seen order (`d` has no repetition, holds
exactly the tile's colors, as many as the tile has distinct colors, ordered by
first occurrence), the palette before ordering is the first `min 4 k` entries
of `d` followed by `color.Gray{0}` in every remaining slot, and `colCount` is
`min 4 k`.  A tile that shares with this one a prefix of the pixel sequence
already holding 4 distinct colors has the same extracted palette. -/
theorem extractPalette_first_seen (tile : Image C) :
    extractPalette tile
        = some ((firstSeen (pixels tile)).take 4
            ++ List.replicate (4 - (firstSeen (pixels tile)).length) GoColor.Gray0,
          min 4 (firstSeen (pixels tile)).length) ∧
      (firstSeen (pixels tile)).Nodup ∧
      (∀ c, c ∈ firstSeen (pixels tile) ↔ c ∈ pixels tile) ∧
      (firstSeen (pixels tile)).length = (pixels tile).toFinset.card ∧
      (firstSeen (pixels tile)).Pairwise
        (fun a b => (pixels tile).indexOf a < (pixels tile).indexOf b) ∧
      ∀ (tile2 : Image C) (pre r r2 : List C), pixels tile = pre ++ r → pixels tile2 = pre ++ r2 →
        4 ≤ (firstSeen pre).length → extractPalette tile2 = extractPalette tile := by
  refine ⟨extractPalette_eq tile, nodup_firstSeen _, mem_firstSeen _, firstSeen_length _,
    firstSeen_order _, ?_⟩
  intro tile2 pre r r2 h1 h2 h4
  rw [extractPalette_eq tile, extractPalette_eq tile2, h1, h2]
  obtain ⟨e1, l1⟩ := firstSeen_append_take pre r h4
  obtain ⟨e2, l2⟩ := firstSeen_append_take pre r2 h4
  rw [e1, e2, Nat.sub_eq_zero_of_le l1, Nat.sub_eq_zero_of_le l2, Nat.min_eq_left l1,
    Nat.min_eq_left l2]

/-- C4, at two concrete tiles that differ only after the pixel with the 4th
distinct color: their extracted palettes are equal. -/
theorem extractPalette_first_seen_witness :
    extractPalette (imageOfRows 8 [[.Gray 0, .Gray 9, .Gray 5, .Gray 7, .Gray 1, .Gray 2,
        .Gray 3, .Gray 4]])
      = extractPalette (imageOfRows 8 [[.Gray 0, .Gray 9, .Gray 5, .Gray 7, .Gray 7, .Gray 7,
        .Gray 7, .Gray 7]]) :=
  (extractPalette_first_seen (imageOfRows 8 [[.Gray 0, .Gray 9, .Gray 5, .Gray 7, .Gray 7,
    .Gray 7, .Gray 7, .Gray 7]])).2.2.2.2.2
    (imageOfRows 8 [[.Gray 0, .Gray 9, .Gray 5, .Gray 7, .Gray 1, .Gray 2, .Gray 3, .Gray 4]])
    [.Gray 0, .Gray 9, .Gray 5, .Gray 7] [.Gray 7, .Gray 7, .Gray 7, .Gray 7]
    [.Gray 1, .Gray 2, .Gray 3, .Gray 4] (by decide) (by decide) (by decide)

end C4

/-! ## C5: ordering law -/

section C5

variable {C : Type} [DecidableEq C] [GoColor C]

/-- C5. Ordering law: for every palette of four slots and either pin setting the
ordering step of `Encode` returns four slots, and any two non-pinned slots
`i < j` (from slot 0 with the pin off, from slot 1 with the pin on) satisfy
`key(slot i) ≥ key(slot j)` for the key `(R+G+B, G+B, B)` compared
lexicographically: highest sum first, ties broken by `G+B`, then by `B`. -/
theorem orderPalette_ordering_law (spriteMode : Bool) (palette : List C)
    (h : palette.length = 4) :
    ∃ out, orderPalette spriteMode palette = some out ∧ out.length = 4 ∧
      ∀ i j ci cj, (if spriteMode then 1 else 0) ≤ i → i < j →
        out[i]? = some ci → out[j]? = some cj → keyGe (key ci) (key cj) := by
  obtain ⟨out, ho, hl, hs⟩ := orderPalette_sorted spriteMode palette h
  refine ⟨out, ho, hl, ?_⟩
  intro i j ci cj hm hij hi hj
  rw [keyGe_iff_rank]
  exact pairwise_drop_index _ out _ hs i j ci cj hm hij hi hj

/-- C5, at a concrete palette: black, white, red, green. -/
theorem orderPalette_ordering_law_witness :
    [StdColor.RGBA 0 0 0 255, StdColor.RGBA 255 255 255 255, StdColor.RGBA 255 0 0 255,
        StdColor.RGBA 0 255 0 255].length = 4 ∧
    ∃ out, orderPalette true [StdColor.RGBA 0 0 0 255, StdColor.RGBA 255 255 255 255,
        StdColor.RGBA 255 0 0 255, StdColor.RGBA 0 255 0 255] = some out ∧ out.length = 4 ∧
      ∀ i j ci cj, (if true = true then 1 else 0) ≤ i → i < j →
        out[i]? = some ci → out[j]? = some cj → keyGe (key ci) (key cj) :=
  ⟨rfl, orderPalette_ordering_law true [StdColor.RGBA 0 0 0 255, StdColor.RGBA 255 255 255 255,
    StdColor.RGBA 255 0 0 255, StdColor.RGBA 0 255 0 255] rfl⟩

end C5

/-! ## C3, C6, C7, C2: quantization, pin, length, round trip -/

section C3

variable {C : Type} [DecidableEq C] [GoColor C]

/-- C3. Quantization in `Encode`: for a tile with at most 4 distinct colors (that
fits the index buffer of `dimX*dimY` entries) the three stages succeed, and for
every pixel, at row-major position `p` with color `c`, the index stored at
`rawData[p]` is the least `i` with `palette[i] = c` in the ordered palette: it
is below 4, slot `i` holds `c`, and no earlier slot does. -/
theorem quantize_least_slot (dimX dimY : Nat) (spriteMode : Bool) (tile : Image C)
    (h4 : (pixels tile).toFinset.card ≤ 4)
    (hsz : (pixels tile).length ≤ dimX * dimY % 2 ^ 64) :
    ∃ st palette rawData, extractPalette tile = some st ∧
      orderPalette spriteMode st.1 = some palette ∧
      quantize dimX dimY tile palette = some rawData ∧
      ∀ (p : Nat) (c : C), (pixels tile)[p]? = some c →
        ∃ i, rawData[p]? = some i ∧ i < 4 ∧ palette[i]? = some c ∧
          ∀ k, k < i → palette[k]? ≠ some c := by
  obtain ⟨st, palette, rawData, he, hst, ho, hl, hp, -, hq, hr, -⟩ :=
    Encode_stages dimX dimY spriteMode tile hsz
  refine ⟨st, palette, rawData, he, ho, hq, ?_⟩
  intro p c hpc
  obtain ⟨hlen, hget⟩ := List.getElem?_eq_some.mp hpc
  have hmem : c ∈ palette := by
    apply hp.symm.subset
    rw [hst]
    exact mem_extracted_of_card_le tile h4 c (hget ▸ List.getElem_mem _)
  obtain ⟨h1, h2, h3⟩ := indexOf_spec palette c hmem
  refine ⟨palette.indexOf c, ?_, by omega, h2, h3⟩
  rw [hr, List.getElem?_append_left (by simpa using hlen), List.getElem?_map, hpc]
  rfl

/-- C3, at a concrete tile: one row of eight pixels in three colors, pin off. -/
theorem quantize_least_slot_witness :
    ∃ st palette rawData,
      extractPalette (imageOfRows 8 [[.Gray 0, .Gray 9, .Gray 0, .Gray 5, .Gray 5, .Gray 9,
        .Gray 0, .Gray 0]]) = some st ∧
      orderPalette false st.1 = some palette ∧
      quantize 8 1 (imageOfRows 8 [[.Gray 0, .Gray 9, .Gray 0, .Gray 5, .Gray 5, .Gray 9,
        .Gray 0, .Gray 0]]) palette = some rawData ∧
      ∀ (p : Nat) (c : StdColor), (pixels (imageOfRows 8 [[.Gray 0, .Gray 9, .Gray 0, .Gray 5, .Gray 5, .Gray 9,
          .Gray 0, .Gray 0]]))[p]? = some c →
        ∃ i, rawData[p]? = some i ∧ i < 4 ∧ palette[i]? = some c ∧
          ∀ k, k < i → palette[k]? ≠ some c :=
  quantize_least_slot 8 1 false (imageOfRows 8 [[.Gray 0, .Gray 9, .Gray 0, .Gray 5, .Gray 5,
    .Gray 9, .Gray 0, .Gray 0]]) (by decide) (by decide)

end C3

section C6

variable {C : Type} [DecidableEq C] [GoColor C]

/-- C6. Transparency pin: with `spriteMode` on, for every non-empty tile (that
fits the index buffer) whose first pixel in row-major order has color `c0`, the
ordered palette holds `c0` in slot 0, whatever the keys, and every pixel of
color `c0` is quantized to index 0. -/
theorem pin_first_color (dimX dimY : Nat) (tile : Image C) (c0 : C) (rest : List C)
    (hne : pixels tile = c0 :: rest) (hsz : (pixels tile).length ≤ dimX * dimY % 2 ^ 64) :
    ∃ st palette rawData, extractPalette tile = some st ∧
      orderPalette true st.1 = some palette ∧
      quantize dimX dimY tile palette = some rawData ∧
      c0 = tile.At tile.Bounds.MinX tile.Bounds.MinY ∧
      palette[0]? = some c0 ∧
      ∀ (p : Nat), (pixels tile)[p]? = some c0 → rawData[p]? = some 0 := by
  obtain ⟨st, palette, rawData, he, hst, ho, hl, -, h0, hq, hr, -⟩ :=
    Encode_stages dimX dimY true tile hsz
  have hp0 : palette[0]? = some c0 := by
    rw [h0 rfl, hst, hne]
    simp [firstSeen]
  refine ⟨st, palette, rawData, he, ho, hq, ?_, hp0, ?_⟩
  · obtain ⟨hlen, hget⟩ := pixels_spec tile
    have hpos : 0 < (tile.Bounds.MaxY - tile.Bounds.MinY).toNat
        * (tile.Bounds.MaxX - tile.Bounds.MinX).toNat := by
      rw [← hlen, hne]
      simp
    have hH : 0 < (tile.Bounds.MaxY - tile.Bounds.MinY).toNat := Nat.pos_of_mul_pos_right hpos
    have hW : 0 < (tile.Bounds.MaxX - tile.Bounds.MinX).toNat := Nat.pos_of_mul_pos_left hpos
    have := hget 0 0 hH hW
    rw [hne] at this
    simpa using this
  · intro p hp
    obtain ⟨hlen, -⟩ := List.getElem?_eq_some.mp hp
    rw [hr, List.getElem?_append_left (by simpa using hlen), List.getElem?_map, hp]
    match palette, hl, hp0 with
    | [a, b, c, d], _, hp0 =>
      have : a = c0 := by simpa using hp0
      subst this
      simp

/-- C6, at a concrete tile: the first pixel is black, the darkest color. -/
theorem pin_first_color_witness :
    ∃ st palette rawData,
      extractPalette (imageOfRows 8 [[.Gray 0, .Gray 9, .Gray 0, .Gray 5, .Gray 5, .Gray 9,
        .Gray 0, .Gray 0]]) = some st ∧
      orderPalette true st.1 = some palette ∧
      quantize 8 1 (imageOfRows 8 [[.Gray 0, .Gray 9, .Gray 0, .Gray 5, .Gray 5, .Gray 9,
        .Gray 0, .Gray 0]]) palette = some rawData ∧
      StdColor.Gray 0 = (imageOfRows 8 [[.Gray 0, .Gray 9, .Gray 0, .Gray 5, .Gray 5, .Gray 9,
        .Gray 0, .Gray 0]]).At 0 0 ∧
      palette[0]? = some (StdColor.Gray 0) ∧
      ∀ (p : Nat), (pixels (imageOfRows 8 [[.Gray 0, .Gray 9, .Gray 0, .Gray 5, .Gray 5, .Gray 9,
          .Gray 0, .Gray 0]]))[p]? = some (StdColor.Gray 0) → rawData[p]? = some 0 :=
  pin_first_color 8 1 (imageOfRows 8 [[.Gray 0, .Gray 9, .Gray 0, .Gray 5, .Gray 5, .Gray 9,
    .Gray 0, .Gray 0]]) (.Gray 0) [.Gray 9, .Gray 0, .Gray 5, .Gray 5, .Gray 9, .Gray 0, .Gray 0]
    (by decide) (by decide)

end C6

section C7

variable {C : Type} [DecidableEq C] [GoColor C]

/-- C7. Output length: for every tile width `dimX` and height `dimY` (whose
product is a slice length, below `2^64`; it need not be a multiple of 8) and
every tile of `dimX` by `dimY` pixels, `Encode` returns, and returns exactly
`dimX*dimY/4` bytes (integer division). -/
theorem Encode_length (dimX dimY : Nat) (spriteMode : Bool) (tile : Image C)
    (hW : tile.Bounds.MaxX - tile.Bounds.MinX = (dimX : Int))
    (hH : tile.Bounds.MaxY - tile.Bounds.MinY = (dimY : Int))
    (hov : dimX * dimY < 2 ^ 64) :
    ∃ out, Encode dimX dimY spriteMode tile = some out ∧ out.length = dimX * dimY / 4 :=
  Encode_fits dimX dimY spriteMode tile hov
    (Nat.le_of_eq (pixels_length_of_dims dimX dimY tile hW hH))

/-- C7, at a concrete tile of 3 by 2 pixels: 6 pixels give 1 byte. -/
theorem Encode_length_witness :
    ∃ out, Encode 3 2 true (imageOfRows 3 [[.Gray 0, .Gray 9, .Gray 0], [.Gray 5, .Gray 5,
      .Gray 9]]) = some out ∧ out.length = 3 * 2 / 4 :=
  Encode_length 3 2 true (imageOfRows 3 [[.Gray 0, .Gray 9, .Gray 0], [.Gray 5, .Gray 5,
    .Gray 9]]) (by decide) (by decide) (by norm_num)

end C7

section C2

variable {C : Type} [DecidableEq C] [GoColor C]

/-- C2. Round trip: for every tile 8 pixels wide and `dimY` high with at most 4
distinct colors and either pin setting, `Encode` returns and decoding its
output (index at row `r`, column `n` = bit `7-n` of byte `2r` plus twice bit
`7-n` of byte `2r+1`) gives back, entry by entry in row-major order, the index
buffer the quantizer computed; the decoded index selects in the ordered palette
the color of the pixel. -/
theorem round_trip (dimY : Nat) (spriteMode : Bool) (tile : Image C)
    (hW : tile.Bounds.MaxX - tile.Bounds.MinX = 8)
    (hH : tile.Bounds.MaxY - tile.Bounds.MinY = (dimY : Int))
    (hov : 8 * dimY < 2 ^ 64) (h4 : (pixels tile).toFinset.card ≤ 4) :
    ∃ st palette rawData data, extractPalette tile = some st ∧
      orderPalette spriteMode st.1 = some palette ∧
      quantize 8 dimY tile palette = some rawData ∧
      Encode 8 dimY spriteMode tile = some data ∧
      rawData.length = 8 * dimY ∧
      ∀ (r n : Nat), r < dimY → n < 8 →
        rawData[8 * r + n]? = some (decodeIndex data r n) ∧
        palette[decodeIndex data r n]?
          = some (tile.At (tile.Bounds.MinX + (n : Int)) (tile.Bounds.MinY + (r : Int))) := by
  have hm : 8 * dimY % 2 ^ 64 = 8 * dimY := Nat.mod_eq_of_lt hov
  have hpl : (pixels tile).length = 8 * dimY :=
    pixels_length_of_dims 8 dimY tile (by simpa using hW) hH
  obtain ⟨st, palette, rawData, he, hst, ho, hl, hp, -, hq, hr, hE⟩ :=
    Encode_stages 8 dimY spriteMode tile (by rw [hm, hpl])
  have hlen : rawData.length = 8 * dimY := by
    rw [hr, hm, List.length_append, List.length_map, List.length_replicate]
    omega
  obtain ⟨data, hpk, -, hin, -⟩ := pack_spec 8 dimY rawData hov hlen
  refine ⟨st, palette, rawData, data, he, ho, hq, by rw [hE, hpk], hlen, ?_⟩
  intro r n hr' hn
  have hpos : 8 * r + n < (pixels tile).length := by omega
  obtain ⟨-, hget⟩ := pixels_spec tile
  have hpix := hget r n (by rw [hH]; simpa using hr') (by rw [hW]; simpa using hn)
  rw [hW] at hpix
  have e8 : r * (8 : Int).toNat + n = 8 * r + n := by
    have : (8 : Int).toNat = 8 := rfl
    rw [this, Nat.mul_comm]
  rw [e8] at hpix
  have hmem : tile.At (tile.Bounds.MinX + (n : Int)) (tile.Bounds.MinY + (r : Int)) ∈ palette := by
    apply hp.symm.subset
    rw [hst]
    obtain ⟨_, hg⟩ := List.getElem?_eq_some.mp hpix
    exact mem_extracted_of_card_le tile h4 _ (hg ▸ List.getElem_mem _)
  obtain ⟨h1, h2, -⟩ := indexOf_spec palette _ hmem
  have hraw : rawData[8 * r + n]?
      = some (palette.indexOf
          (tile.At (tile.Bounds.MinX + (n : Int)) (tile.Bounds.MinY + (r : Int)))) := by
    rw [hr, List.getElem?_append_left (by simpa using hpos), List.getElem?_map, hpix]
    rfl
  have hd : decodeIndex data r n
      = palette.indexOf (tile.At (tile.Bounds.MinX + (n : Int)) (tile.Bounds.MinY + (r : Int))) := by
    have hk := hin r (by omega)
    unfold decodeIndex
    rw [hk.1, hk.2, testBit_lowByte (fun m => rawData.getD (8 * r + m) 0) n hn,
      testBit_highByte (fun m => rawData.getD (8 * r + m) 0) n hn]
    have hv : rawData.getD (8 * r + n) 0
        = palette.indexOf
          (tile.At (tile.Bounds.MinX + (n : Int)) (tile.Bounds.MinY + (r : Int))) := by
      simp [List.getD, hraw]
    simp only [hv]
    exact two_bits _ (by omega)
  rw [hd]
  exact ⟨hraw, h2⟩

/-- C2, at a concrete tile of two rows in four colors, pin on. -/
theorem round_trip_witness :
    ∃ st palette rawData data,
      extractPalette (imageOfRows 8 [[.Gray 0, .Gray 9, .Gray 0, .Gray 5, .Gray 5, .Gray 9,
        .Gray 0, .Gray 0], [.Gray 7, .Gray 9, .Gray 7, .Gray 5, .Gray 5, .Gray 9, .Gray 0,
        .Gray 7]]) = some st ∧
      orderPalette true st.1 = some palette ∧
      quantize 8 2 (imageOfRows 8 [[.Gray 0, .Gray 9, .Gray 0, .Gray 5, .Gray 5, .Gray 9,
        .Gray 0, .Gray 0], [.Gray 7, .Gray 9, .Gray 7, .Gray 5, .Gray 5, .Gray 9, .Gray 0,
        .Gray 7]]) palette = some rawData ∧
      Encode 8 2 true (imageOfRows 8 [[.Gray 0, .Gray 9, .Gray 0, .Gray 5, .Gray 5, .Gray 9,
        .Gray 0, .Gray 0], [.Gray 7, .Gray 9, .Gray 7, .Gray 5, .Gray 5, .Gray 9, .Gray 0,
        .Gray 7]]) = some data ∧
      rawData.length = 8 * 2 ∧
      ∀ (r n : Nat), r < 2 → n < 8 →
        rawData[8 * r + n]? = some (decodeIndex data r n) ∧
        palette[decodeIndex data r n]?
          = some ((imageOfRows 8 [[.Gray 0, .Gray 9, .Gray 0, .Gray 5, .Gray 5, .Gray 9,
            .Gray 0, .Gray 0], [.Gray 7, .Gray 9, .Gray 7, .Gray 5, .Gray 5, .Gray 9, .Gray 0,
            .Gray 7]]).At (0 + (n : Int)) (0 + (r : Int))) :=
  round_trip 2 true (imageOfRows 8 [[.Gray 0, .Gray 9, .Gray 0, .Gray 5, .Gray 5, .Gray 9,
    .Gray 0, .Gray 0], [.Gray 7, .Gray 9, .Gray 7, .Gray 5, .Gray 5, .Gray 9, .Gray 0,
    .Gray 7]]) (by decide) (by decide) (by norm_num) (by decide)

end C2

/-! ## The tile walk over its loop bounds -/

section WalkOverBounds

/-- The walk in terms of its loop bounds `maxX`, `maxY` (in `main` these are
`Bounds().Max`, not the width and height of the surface): for tile width and
height at least 1 and without arithmetic overflow, the two loops end (with
enough fuel) and visit exactly the origins
`(offsetX + i*(dimX+spacingX), offsetY + j*(dimY+spacingY))` with
`x + dimX ≤ maxX` and `y + dimY ≤ maxY`, each once, in row-major order. -/
theorem tile_walk (dimX dimY offsetX offsetY spacingX spacingY maxX maxY : Nat)
    (hdx : 1 ≤ dimX) (hdy : 1 ≤ dimY)
    (hox : offsetX + dimX < 2 ^ 64) (hoy : offsetY + dimY < 2 ^ 64)
    (hmx : maxX + dimX + spacingX < 2 ^ 64) (hmy : maxY + dimY + spacingY < 2 ^ 64) :
    ∃ l fuel0,
      (∀ fuel, fuel0 ≤ fuel →
        tileOrigins dimX dimY offsetX offsetY spacingX spacingY maxX maxY fuel = some l) ∧
      (∀ x y, (x, y) ∈ l ↔
        ∃ i j, x = offsetX + i * (dimX + spacingX) ∧ y = offsetY + j * (dimY + spacingY) ∧
          x + dimX ≤ maxX ∧ y + dimY ≤ maxY) ∧
      l.Nodup ∧
      l.Pairwise (fun a b => a.2 < b.2 ∨ (a.2 = b.2 ∧ a.1 < b.1)) := by
  have hs := gridOrigins_sorted _ _
    (gridCoords_sorted dimX offsetX spacingX (tileCount dimX offsetX spacingX maxX) hdx)
    (gridCoords_sorted dimY offsetY spacingY (tileCount dimY offsetY spacingY maxY) hdy)
  refine ⟨_, tileCount dimX offsetX spacingX maxX + tileCount dimY offsetY spacingY maxY + 1,
    ?_, mem_grid_iff dimX dimY offsetX offsetY spacingX spacingY maxX maxY hdx hdy, ?_, hs⟩
  · intro fuel hf
    exact tileOrigins_eq dimX dimY offsetX offsetY spacingX spacingY maxX maxY hdx hdy hox hoy
      hmx hmy fuel (by omega) (by omega)
  · refine hs.imp ?_
    intro a b hab heq
    subst heq
    omega

/-- The walk over its loop bounds at 8x8 tiles, offset (1, 2), spacing (3, 4),
bounds 40 and 40. -/
theorem tile_walk_witness :
    ∃ l fuel0,
      (∀ fuel, fuel0 ≤ fuel → tileOrigins 8 8 1 2 3 4 40 40 fuel = some l) ∧
      (∀ x y, (x, y) ∈ l ↔
        ∃ i j, x = 1 + i * (8 + 3) ∧ y = 2 + j * (8 + 4) ∧ x + 8 ≤ 40 ∧ y + 8 ≤ 40) ∧
      l.Nodup ∧
      l.Pairwise (fun a b => a.2 < b.2 ∨ (a.2 = b.2 ∧ a.1 < b.1)) :=
  tile_walk 8 8 1 2 3 4 40 40 (by decide) (by decide) (by norm_num) (by norm_num)
    (by norm_num) (by norm_num)


/-- The number of visits in terms of the loop bounds `maxX`, `maxY`: for tile
width and height at least 1 (no overflow) the loops visit `nx * ny` origins,
where `nx` is 0 if `offsetX + dimX > maxX` and
`(maxX - offsetX - dimX) / (dimX + spacingX) + 1` otherwise, and `ny` likewise.
Bounds 16 and 8 with 8x8 tiles, offset 0, spacing 0 give the origins at `x = 0`
and `x = 8`; bounds 15 and 8 give one; bounds 7 and 7 give none. -/
theorem tile_count (dimX dimY offsetX offsetY spacingX spacingY maxX maxY : Nat)
    (hdx : 1 ≤ dimX) (hdy : 1 ≤ dimY)
    (hox : offsetX + dimX < 2 ^ 64) (hoy : offsetY + dimY < 2 ^ 64)
    (hmx : maxX + dimX + spacingX < 2 ^ 64) (hmy : maxY + dimY + spacingY < 2 ^ 64) :
    (∃ l fuel0,
      (∀ fuel, fuel0 ≤ fuel →
        tileOrigins dimX dimY offsetX offsetY spacingX spacingY maxX maxY fuel = some l) ∧
      l.length
        = (if offsetX + dimX > maxX then 0
            else (maxX - offsetX - dimX) / (dimX + spacingX) + 1)
          * (if offsetY + dimY > maxY then 0
            else (maxY - offsetY - dimY) / (dimY + spacingY) + 1)) ∧
      tileOrigins 8 8 0 0 0 0 16 8 3 = some [(0, 0), (8, 0)] ∧
      tileOrigins 8 8 0 0 0 0 15 8 3 = some [(0, 0)] ∧
      tileOrigins 8 8 0 0 0 0 7 7 3 = some [] := by
  refine ⟨⟨gridOrigins
      (gridCoords dimX offsetX spacingX (tileCount dimX offsetX spacingX maxX))
      (gridCoords dimY offsetY spacingY (tileCount dimY offsetY spacingY maxY)),
    tileCount dimX offsetX spacingX maxX + tileCount dimY offsetY spacingY maxY + 1,
    ?_, ?_⟩, by decide, by decide, by decide⟩
  · intro fuel hf
    exact tileOrigins_eq dimX dimY offsetX offsetY spacingX spacingY maxX maxY hdx hdy hox hoy
      hmx hmy fuel (by omega) (by omega)
  · rw [gridOrigins_length]
    simp only [gridCoords, List.length_map, List.length_range, tileCount]

/-- The number of visits at 8x8 tiles, offset (1, 2), spacing (3, 4), bounds 40
and 40. -/
theorem tile_count_witness :
    (∃ l fuel0,
      (∀ fuel, fuel0 ≤ fuel → tileOrigins 8 8 1 2 3 4 40 40 fuel = some l) ∧
      l.length
        = (if 1 + 8 > 40 then 0 else (40 - 1 - 8) / (8 + 3) + 1)
          * (if 2 + 8 > 40 then 0 else (40 - 2 - 8) / (8 + 4) + 1)) ∧
      tileOrigins 8 8 0 0 0 0 16 8 3 = some [(0, 0), (8, 0)] ∧
      tileOrigins 8 8 0 0 0 0 15 8 3 = some [(0, 0)] ∧
      tileOrigins 8 8 0 0 0 0 7 7 3 = some [] :=
  tile_count 8 8 1 2 3 4 40 40 (by decide) (by decide) (by norm_num) (by norm_num)
    (by norm_num) (by norm_num)

end WalkOverBounds

/-! ## C8, C9: the tile walk on an image whose bounds do not start at (0, 0) -/

section C8

/-- C8. The tile walk evaluated at `offsetImage`, an 8x8 surface with bounds
`(4, 4) - (12, 12)`, with 8x8 tiles, offset 0 and spacing 0: the loops of
`main` compare against `Bounds().Max` only, visit the origin `(0, 0)`, and the
tile handed to `Encode` has bounds `(4, 4) - (8, 8)`, 16 pixels of the 64: a
tile that the surface contains only partially is emitted. -/
theorem offset_image_partial_tile :
    offsetImage.Bounds = ⟨4, 4, 12, 12⟩ ∧
    mainTiles 8 8 0 0 0 0 offsetImage 3 = some [(0, 0, ⟨4, 4, 8, 8⟩)] ∧
    (tileAt 8 8 offsetImage 0 0).Bounds ≠ Rect 0 0 8 8 ∧
    (pixels (tileAt 8 8 offsetImage 0 0)).length = 16 ∧
    Encode 8 8 false (tileAt 8 8 offsetImage 0 0)
      = some [90, 0, 90, 0, 0, 0, 0, 0, 0, 0, 0, 0, 0, 0, 0, 0] := by
  refine ⟨by decide, by decide, by decide, by decide, by decide⟩

end C8

section C9

/-- C9. The tile count evaluated at `offsetImage`, an 8x8 surface with bounds
`(4, 4) - (12, 12)`, with 4x4 tiles, offset 0 and spacing 0: the formula of the
claim gives `2 * 2 = 4` tiles for a surface of width 8 and height 8, and the
loops of `main` visit 9 origins, 5 of which give an empty tile outside the
surface. -/
theorem offset_image_tile_count :
    (offsetImage.Bounds.MaxX - offsetImage.Bounds.MinX).toNat = 8 ∧
    (offsetImage.Bounds.MaxY - offsetImage.Bounds.MinY).toNat = 8 ∧
    (if 0 + 4 > 8 then 0 else (8 - 0 - 4) / (4 + 0) + 1)
      * (if 0 + 4 > 8 then 0 else (8 - 0 - 4) / (4 + 0) + 1) = 4 ∧
    (mainTiles 4 4 0 0 0 0 offsetImage 4).map List.length = some 9 ∧
    (mainTiles 4 4 0 0 0 0 offsetImage 4).map
        (fun l => (l.filter (fun t => t.2.2.Empty)).length) = some 5 := by
  refine ⟨by decide, by decide, by decide, by decide, by decide⟩

end C9

/-! ## C10: the output stream -/

section C10

variable {C : Type} [DecidableEq C] [GoColor C]

/-- C10. Output stream: for an image with `Bounds().Max = (maxX, maxY)` (tile sizes
at least 1, no overflow, `dimX*dimY` a slice length), with `nx` and `ny` the
numbers of grid columns and rows up to `maxX` and `maxY`, the loops of `main`
end and `outputData` is the concatenation of `Encode(tile)` over the `nx * ny`
tiles at the grid origins `(offsetX + i*(dimX+spacingX), offsetY + j*(dimY+spacingY))`,
`i < nx`, `j < ny`, taken row by row (all `i` for `j = 0`, then for `j = 1`,
...); every `Encode` returns `dimX*dimY/4` bytes, so the length of `outputData`
is `nx * ny * (dimX*dimY/4)`. -/
theorem main_output (dimX dimY offsetX offsetY spacingX spacingY maxX maxY : Nat)
    (spriteMode : Bool) (tileset : Image C)
    (hbx : tileset.Bounds.MaxX = (maxX : Int)) (hby : tileset.Bounds.MaxY = (maxY : Int))
    (hix : maxX < 2 ^ 63) (hiy : maxY < 2 ^ 63)
    (hdx : 1 ≤ dimX) (hdy : 1 ≤ dimY)
    (hox : offsetX + dimX < 2 ^ 64) (hoy : offsetY + dimY < 2 ^ 64)
    (hmx : maxX + dimX + spacingX < 2 ^ 64) (hmy : maxY + dimY + spacingY < 2 ^ 64)
    (hov : dimX * dimY < 2 ^ 64) :
    ∃ encs fuel0,
      (∀ fuel, fuel0 ≤ fuel →
        mainOutput dimX dimY offsetX offsetY spacingX spacingY spriteMode tileset fuel
          = some encs.flatten) ∧
      List.Forall₂
        (fun o e => Encode dimX dimY spriteMode (tileAt dimX dimY tileset o.1 o.2) = some e ∧
          e.length = dimX * dimY / 4)
        ((List.range (tileCount dimY offsetY spacingY maxY)).flatMap (fun j =>
          (List.range (tileCount dimX offsetX spacingX maxX)).map (fun i =>
            (offsetX + i * (dimX + spacingX), offsetY + j * (dimY + spacingY)))))
        encs ∧
      encs.length
        = tileCount dimX offsetX spacingX maxX * tileCount dimY offsetY spacingY maxY ∧
      encs.flatten.length
        = tileCount dimX offsetX spacingX maxX * tileCount dimY offsetY spacingY maxY
          * (dimX * dimY / 4) := by
  have hgrid : (List.range (tileCount dimY offsetY spacingY maxY)).flatMap (fun j =>
        (List.range (tileCount dimX offsetX spacingX maxX)).map (fun i =>
          (offsetX + i * (dimX + spacingX), offsetY + j * (dimY + spacingY))))
      = gridOrigins
          (gridCoords dimX offsetX spacingX (tileCount dimX offsetX spacingX maxX))
          (gridCoords dimY offsetY spacingY (tileCount dimY offsetY spacingY maxY)) := by
    simp only [gridOrigins, gridCoords, List.flatMap_map, List.map_map]
    rfl
  have hfit : ∀ o ∈ gridOrigins
      (gridCoords dimX offsetX spacingX (tileCount dimX offsetX spacingX maxX))
      (gridCoords dimY offsetY spacingY (tileCount dimY offsetY spacingY maxY)),
      ∃ e, Encode dimX dimY spriteMode (tileAt dimX dimY tileset o.1 o.2) = some e ∧
        e.length = dimX * dimY / 4 := by
    intro o ho
    obtain ⟨x, y⟩ := o
    obtain ⟨i, j, -, -, hx, hy⟩ :=
      (mem_grid_iff dimX dimY offsetX offsetY spacingX spacingY maxX maxY hdx hdy x y).mp ho
    exact Encode_fits dimX dimY spriteMode _ hov
      (tileAt_fits dimX dimY tileset x y (by omega) (by omega))
  obtain ⟨encs, hF, hA, hN, hL⟩ := appendAll_forall2
    (fun x y => Encode dimX dimY spriteMode (tileAt dimX dimY tileset x y)) (dimX * dimY / 4)
    _ [] hfit
  have hcount : (gridOrigins
      (gridCoords dimX offsetX spacingX (tileCount dimX offsetX spacingX maxX))
      (gridCoords dimY offsetY spacingY (tileCount dimY offsetY spacingY maxY))).length
      = tileCount dimX offsetX spacingX maxX * tileCount dimY offsetY spacingY maxY := by
    rw [gridOrigins_length]
    simp only [gridCoords, List.length_map, List.length_range]
  rw [hgrid]
  refine ⟨encs, tileCount dimX offsetX spacingX maxX + tileCount dimY offsetY spacingY maxY + 1,
    ?_, hF, by rw [hN, hcount], by rw [hL, hcount]⟩
  intro fuel hf
  unfold mainOutput
  rw [hbx, hby, toUint_natCast _ hix, toUint_natCast _ hiy,
    walk_eq dimX dimY offsetX spacingX spacingY maxX maxY _ fuel hdx hdy hox hmx hmy (by omega) _
      offsetY fuel [] rfl hoy (by omega), hA]
  simp

/-- C10, at `fourTileImage`, 16x16 pixels in four different 8x8 tiles, pin off:
the four encodings follow each other in the order top left, top right, bottom
left, bottom right. -/
theorem main_output_witness :
    (∃ encs fuel0,
      (∀ fuel, fuel0 ≤ fuel →
        mainOutput 8 8 0 0 0 0 false fourTileImage fuel = some encs.flatten) ∧
      List.Forall₂
        (fun o e => Encode 8 8 false (tileAt 8 8 fourTileImage o.1 o.2) = some e ∧
          e.length = 8 * 8 / 4)
        ((List.range (tileCount 8 0 0 16)).flatMap (fun j =>
          (List.range (tileCount 8 0 0 16)).map (fun i =>
            (0 + i * (8 + 0), 0 + j * (8 + 0)))))
        encs ∧
      encs.length = tileCount 8 0 0 16 * tileCount 8 0 0 16 ∧
      encs.flatten.length = tileCount 8 0 0 16 * tileCount 8 0 0 16 * (8 * 8 / 4)) ∧
    (List.range (tileCount 8 0 0 16)).flatMap (fun j =>
        (List.range (tileCount 8 0 0 16)).map (fun i => (0 + i * (8 + 0), 0 + j * (8 + 0))))
      = [(0, 0), (8, 0), (0, 8), (8, 8)] ∧
    mainOutput 8 8 0 0 0 0 false fourTileImage 3
      = some ([85, 0, 170, 0, 85, 0, 170, 0, 85, 0, 170, 0, 85, 0, 170, 0]
          ++ [64, 0, 0, 0, 0, 0, 0, 0, 0, 0, 0, 0, 0, 0, 0, 0]
          ++ [170, 0, 85, 0, 170, 0, 85, 0, 170, 0, 85, 0, 170, 0, 85, 0]
          ++ [32, 0, 0, 0, 0, 0, 0, 0, 0, 0, 0, 0, 0, 0, 0, 0]) :=
  ⟨main_output 8 8 0 0 0 0 16 16 false fourTileImage (by simp [fourTileImage, imageOfRows])
    (by simp [fourTileImage, imageOfRows]) (by norm_num) (by norm_num) (by decide) (by decide)
    (by norm_num) (by norm_num) (by norm_num) (by norm_num) (by norm_num),
   by decide, by decide⟩

end C10

/-! ## C13, C20: idempotence and stability of the ordering step -/

section C13

variable {C : Type} [DecidableEq C] [GoColor C]

/-- C13. Idempotence of the palette ordering step: for every palette of four slots
and either pin setting, the ordering step applied to its own output returns
that output again; and a palette whose non-pinned slots already satisfy the
ordering law (`key(slot i) ≥ key(slot j)` for non-pinned `i < j`) is returned
unchanged. -/
theorem orderPalette_idempotent (spriteMode : Bool) (palette : List C)
    (h : palette.length = 4) :
    (∃ out, orderPalette spriteMode palette = some out ∧
      orderPalette spriteMode out = some out) ∧
    ((∀ (i j : Nat) (ci cj : C), (if spriteMode then 1 else 0) ≤ i → i < j →
        palette[i]? = some ci → palette[j]? = some cj → keyGe (key ci) (key cj)) →
      orderPalette spriteMode palette = some palette) := by
  have fixed : ∀ (p : List C), p.length = 4 →
      (∀ (i j : Nat) (ci cj : C), (if spriteMode then 1 else 0) ≤ i → i < j →
        p[i]? = some ci → p[j]? = some cj → keyGe (key ci) (key cj)) →
      orderPalette spriteMode p = some p := by
    intro p hp H
    match p, hp with
    | [a, b, c, d], _ =>
      refine orderPalette_fixed spriteMode a b c d ?_ ?_ ?_
      · exact H 1 2 b c (by split <;> omega) (by omega) rfl rfl
      · exact H 2 3 c d (by split <;> omega) (by omega) rfl rfl
      · intro hm
        subst hm
        exact H 0 1 a b (by simp) (by omega) rfl rfl
  refine ⟨?_, fixed palette h⟩
  obtain ⟨out, ho, hl, hs⟩ := orderPalette_sorted spriteMode palette h
  refine ⟨out, ho, fixed out hl ?_⟩
  intro i j ci cj hm hij hi hj
  rw [keyGe_iff_rank]
  exact pairwise_drop_index _ out _ hs i j ci cj hm hij hi hj

/-- C13, at a concrete palette: black, white, red, green, pin off. -/
theorem orderPalette_idempotent_witness :
    (∃ out, orderPalette false [StdColor.RGBA 0 0 0 255, StdColor.RGBA 255 255 255 255,
        StdColor.RGBA 255 0 0 255, StdColor.RGBA 0 255 0 255] = some out ∧
      orderPalette false out = some out) ∧
    ((∀ (i j : Nat) (ci cj : StdColor), (if false = true then 1 else 0) ≤ i → i < j →
        [StdColor.RGBA 0 0 0 255, StdColor.RGBA 255 255 255 255, StdColor.RGBA 255 0 0 255,
          StdColor.RGBA 0 255 0 255][i]? = some ci →
        [StdColor.RGBA 0 0 0 255, StdColor.RGBA 255 255 255 255, StdColor.RGBA 255 0 0 255,
          StdColor.RGBA 0 255 0 255][j]? = some cj → keyGe (key ci) (key cj)) →
      orderPalette false [StdColor.RGBA 0 0 0 255, StdColor.RGBA 255 255 255 255,
        StdColor.RGBA 255 0 0 255, StdColor.RGBA 0 255 0 255]
        = some [StdColor.RGBA 0 0 0 255, StdColor.RGBA 255 255 255 255,
          StdColor.RGBA 255 0 0 255, StdColor.RGBA 0 255 0 255]) :=
  orderPalette_idempotent false [StdColor.RGBA 0 0 0 255, StdColor.RGBA 255 255 255 255,
    StdColor.RGBA 255 0 0 255, StdColor.RGBA 0 255 0 255] rfl

end C13

section C20

variable {C : Type} [DecidableEq C] [GoColor C]

/-- C20. Stability of the palette ordering: for every palette of four slots and
either pin setting, the ordered palette is a permutation of the palette before
ordering, the pinned slot stays, and for every key the non-pinned slots with
that key form the same sequence after the ordering step as before it: slots of
equal key keep their relative (discovery) order. -/
theorem orderPalette_stable (spriteMode : Bool) (palette : List C) (h : palette.length = 4) :
    ∃ out, orderPalette spriteMode palette = some out ∧ out.Perm palette ∧
      (spriteMode = true → out[0]? = palette[0]?) ∧
      ∀ k : Nat × Nat × Nat,
        (out.drop (if spriteMode then 1 else 0)).filter (fun x => decide (key x = k))
          = (palette.drop (if spriteMode then 1 else 0)).filter
              (fun x => decide (key x = k)) := by
  obtain ⟨out, ho, -, -, hp, h0⟩ := orderPalette_spec spriteMode palette h
  refine ⟨out, ho, hp, h0, ?_⟩
  intro k
  obtain ⟨out2, ho2, hk⟩ := orderPalette_stable_aux spriteMode palette h k
  rw [ho] at ho2
  rw [Option.some.inj ho2]
  exact hk

/-- C20, at a concrete palette with two slots of equal key: `color.RGBA` black
before `color.Gray{0}`. -/
theorem orderPalette_stable_witness :
    ∃ out, orderPalette false [StdColor.RGBA 0 0 0 255, StdColor.Gray 0,
        StdColor.RGBA 255 0 0 255, StdColor.Gray 0] = some out ∧
      out.Perm [StdColor.RGBA 0 0 0 255, StdColor.Gray 0, StdColor.RGBA 255 0 0 255,
        StdColor.Gray 0] ∧
      (false = true → out[0]? = [StdColor.RGBA 0 0 0 255, StdColor.Gray 0,
        StdColor.RGBA 255 0 0 255, StdColor.Gray 0][0]?) ∧
      ∀ k : Nat × Nat × Nat,
        (out.drop (if false = true then 1 else 0)).filter (fun x => decide (key x = k))
          = ([StdColor.RGBA 0 0 0 255, StdColor.Gray 0, StdColor.RGBA 255 0 0 255,
              StdColor.Gray 0].drop (if false = true then 1 else 0)).filter
              (fun x => decide (key x = k)) :=
  orderPalette_stable false [StdColor.RGBA 0 0 0 255, StdColor.Gray 0,
    StdColor.RGBA 255 0 0 255, StdColor.Gray 0] rfl

end C20

/-! ## C18, C15, C16: tiles with few colors -/

section C18

variable {C : Type} [DecidableEq C] [GoColor C]

/-- C18. Compact index range: for every tile with `k ≤ 4` distinct colors (that fits
the index buffer) and either pin setting, the ordered palette holds the `k`
discovered colors, permuted, in slots `0..k-1` and `color.Gray{0}` in every
later slot, whatever the keys of the discovered colors; so every pixel index
the quantizer writes is below `k`. -/
theorem compact_index_range (dimX dimY : Nat) (spriteMode : Bool) (tile : Image C)
    (h4 : (pixels tile).toFinset.card ≤ 4)
    (hsz : (pixels tile).length ≤ dimX * dimY % 2 ^ 64) :
    ∃ st palette rawData, extractPalette tile = some st ∧
      orderPalette spriteMode st.1 = some palette ∧
      quantize dimX dimY tile palette = some rawData ∧
      (palette.take (pixels tile).toFinset.card).Perm (firstSeen (pixels tile)) ∧
      palette.drop (pixels tile).toFinset.card
        = List.replicate (4 - (pixels tile).toFinset.card) GoColor.Gray0 ∧
      ∀ (p : Nat) (c : C), (pixels tile)[p]? = some c →
        ∃ i, rawData[p]? = some i ∧ i < (pixels tile).toFinset.card := by
  obtain ⟨st, palette, rawData, he, hst, ho, hl, -, -, hq, hr, -⟩ :=
    Encode_stages dimX dimY spriteMode tile hsz
  have hk : (firstSeen (pixels tile)).length ≤ 4 := by rw [firstSeen_length]; exact h4
  obtain ⟨out, ho2, -, hdrop, hperm⟩ := orderPalette_padded spriteMode (firstSeen (pixels tile)) hk
  rw [hst, firstSeen_take_four _ h4, ho2] at ho
  obtain rfl : out = palette := Option.some.inj ho
  rw [firstSeen_length] at hdrop hperm
  refine ⟨st, out, rawData, he, ?_, hq, hperm, hdrop, ?_⟩
  · rw [hst, firstSeen_take_four _ h4, ho2]
  · intro p c hpc
    obtain ⟨hlen, hget⟩ := List.getElem?_eq_some.mp hpc
    have hmem : c ∈ out.take (pixels tile).toFinset.card :=
      hperm.symm.subset ((mem_firstSeen _ _).mpr (hget ▸ List.getElem_mem _))
    refine ⟨out.indexOf c, ?_, indexOf_lt_of_mem_take _ _ _ hmem⟩
    rw [hr, List.getElem?_append_left (by simpa using hlen), List.getElem?_map, hpc]
    rfl

/-- C18, at a concrete tile: two colors, one of them `color.RGBA` black, which
has the key of `color.Gray{0}`. -/
theorem compact_index_range_witness :
    ∃ st palette rawData,
      extractPalette (imageOfRows 8 [[.RGBA 0 0 0 255, .Gray 9, .RGBA 0 0 0 255, .Gray 9,
        .Gray 9, .Gray 9, .RGBA 0 0 0 255, .RGBA 0 0 0 255]]) = some st ∧
      orderPalette false st.1 = some palette ∧
      quantize 8 1 (imageOfRows 8 [[.RGBA 0 0 0 255, .Gray 9, .RGBA 0 0 0 255, .Gray 9,
        .Gray 9, .Gray 9, .RGBA 0 0 0 255, .RGBA 0 0 0 255]]) palette = some rawData ∧
      (palette.take (pixels (imageOfRows 8 [[.RGBA 0 0 0 255, .Gray 9, .RGBA 0 0 0 255, .Gray 9,
        .Gray 9, .Gray 9, .RGBA 0 0 0 255, .RGBA 0 0 0 255]])).toFinset.card).Perm
        (firstSeen (pixels (imageOfRows 8 [[.RGBA 0 0 0 255, .Gray 9, .RGBA 0 0 0 255, .Gray 9,
          .Gray 9, .Gray 9, .RGBA 0 0 0 255, .RGBA 0 0 0 255]]))) ∧
      palette.drop (pixels (imageOfRows 8 [[.RGBA 0 0 0 255, .Gray 9, .RGBA 0 0 0 255, .Gray 9,
        .Gray 9, .Gray 9, .RGBA 0 0 0 255, .RGBA 0 0 0 255]])).toFinset.card
        = List.replicate (4 - (pixels (imageOfRows 8 [[.RGBA 0 0 0 255, .Gray 9,
          .RGBA 0 0 0 255, .Gray 9, .Gray 9, .Gray 9, .RGBA 0 0 0 255,
          .RGBA 0 0 0 255]])).toFinset.card) GoColor.Gray0 ∧
      ∀ (p : Nat) (c : StdColor), (pixels (imageOfRows 8 [[.RGBA 0 0 0 255, .Gray 9,
          .RGBA 0 0 0 255, .Gray 9, .Gray 9, .Gray 9, .RGBA 0 0 0 255,
          .RGBA 0 0 0 255]]))[p]? = some c →
        ∃ i, rawData[p]? = some i ∧ i < (pixels (imageOfRows 8 [[.RGBA 0 0 0 255, .Gray 9,
          .RGBA 0 0 0 255, .Gray 9, .Gray 9, .Gray 9, .RGBA 0 0 0 255,
          .RGBA 0 0 0 255]])).toFinset.card :=
  compact_index_range 8 1 false (imageOfRows 8 [[.RGBA 0 0 0 255, .Gray 9, .RGBA 0 0 0 255,
    .Gray 9, .Gray 9, .Gray 9, .RGBA 0 0 0 255, .RGBA 0 0 0 255]]) (by decide) (by decide)

end C18

section C15

variable {C : Type} [DecidableEq C] [GoColor C]

/-- C15. Single-color tile: for every 8x8 tile whose 64 pixels all have the same
color, with either pin setting, `Encode` returns 16 bytes that are all zero. -/
theorem single_color_tile (spriteMode : Bool) (tile : Image C) (c : C)
    (hW : tile.Bounds.MaxX - tile.Bounds.MinX = 8)
    (hH : tile.Bounds.MaxY - tile.Bounds.MinY = 8)
    (hc : ∀ p ∈ pixels tile, p = c) :
    Encode 8 8 spriteMode tile = some (List.replicate 16 0) := by
  have hlen : (pixels tile).length = 8 * 8 :=
    pixels_length_of_dims 8 8 tile (by simpa using hW) (by simpa using hH)
  have hne : pixels tile ≠ [] := by
    intro e
    rw [e] at hlen
    simp at hlen
  have hfs : firstSeen (pixels tile) = [c] := firstSeen_const _ c hne hc
  obtain ⟨st, palette, rawData, data, -, hst, ho, -, -, -, hr, hpk, hE, -, -, -⟩ :=
    Encode_bytes 8 8 spriteMode tile (by norm_num) hlen
  obtain ⟨out, ho2, -, -, hperm⟩ := orderPalette_padded spriteMode [c] (by simp)
  rw [hfs] at hst
  have hpad : st.1 = padded [c] := by rw [hst]; rfl
  rw [hpad, ho2] at ho
  obtain rfl : out = palette := Option.some.inj ho
  have h0 : out.indexOf c = 0 := by
    have hmem : c ∈ out.take 1 := hperm.symm.subset (List.mem_singleton_self c)
    have := indexOf_lt_of_mem_take out c 1 hmem
    omega
  have hraw : rawData = List.replicate (8 * 8) 0 := by
    rw [hr, List.eq_replicate_iff]
    refine ⟨by rw [List.length_map, hlen], ?_⟩
    intro b hb
    obtain ⟨p, hp, rfl⟩ := List.mem_map.mp hb
    rw [hc p hp]
    exact h0
  rw [hE, ← hpk, hraw]
  exact pack_zeros 8 8 (by norm_num)

/-- C15, at the all-black 8x8 tile with the pin off. -/
theorem single_color_tile_witness :
    Encode 8 8 false (imageOfRows 8 (List.replicate 8 (List.replicate 8 (StdColor.RGBA 0 0 0 255))))
      = some (List.replicate 16 0) :=
  single_color_tile false
    (imageOfRows 8 (List.replicate 8 (List.replicate 8 (StdColor.RGBA 0 0 0 255))))
    (StdColor.RGBA 0 0 0 255) (by decide) (by decide) (by decide)

end C15

section C16

variable {C : Type} [DecidableEq C] [GoColor C]

/-- C16. Checkerboard tile: for every 8x8 tile in which two colors `A` and `B`
alternate per pixel (the pixel at row `r`, column `n` is `A` when `r + n + s` is
even and `B` otherwise, `s` fixing the color of the first pixel), with `R+G+B`
of `A` greater than that of `B` and the pin off, the ordered palette is
`[A, B, color.Gray{0}, color.Gray{0}]`, `Encode` returns 16 bytes, every row's
high byte is `0x00`, and every row's low byte is `01010101` when the row starts
with `A` and `10101010` when it starts with `B`. -/
theorem checkerboard_tile (tile : Image C) (A B : C) (s : Nat)
    (hW : tile.Bounds.MaxX - tile.Bounds.MinX = 8)
    (hH : tile.Bounds.MaxY - tile.Bounds.MinY = 8)
    (hAB : (key B).1 < (key A).1)
    (hpix : ∀ r n : Nat, r < 8 → n < 8 →
      tile.At (tile.Bounds.MinX + (n : Int)) (tile.Bounds.MinY + (r : Int))
        = if (r + n + s) % 2 = 0 then A else B) :
    ∃ st data, extractPalette tile = some st ∧
      orderPalette false st.1 = some [A, B, GoColor.Gray0, GoColor.Gray0] ∧
      Encode 8 8 false tile = some data ∧ data.length = 16 ∧
      ∀ r : Nat, r < 8 →
        data[2 * r + 1]? = some 0x00 ∧
        (tile.At tile.Bounds.MinX (tile.Bounds.MinY + (r : Int)) = A →
          data[2 * r]? = some 0b01010101) ∧
        (tile.At tile.Bounds.MinX (tile.Bounds.MinY + (r : Int)) = B →
          data[2 * r]? = some 0b10101010) := by
  have hne : A ≠ B := by
    intro e
    rw [e] at hAB
    exact Nat.lt_irrefl _ hAB
  have hbAB : brighter A B = true := by
    rw [brighter_iff_rank]
    have h1 := key_bounds A
    have h2 := key_bounds B
    unfold rank
    omega
  have hbBA : brighter B A = false := by
    cases hb : brighter B A with
    | false => rfl
    | true =>
      have h1 := (brighter_iff_rank B A).mp hb
      have h2 := (brighter_iff_rank A B).mp hbAB
      omega
  have hlen : (pixels tile).length = 8 * 8 :=
    pixels_length_of_dims 8 8 tile (by simpa using hW) (by simpa using hH)
  have hp : ∀ r n : Nat, r < 8 → n < 8 →
      (pixels tile)[8 * r + n]? = some (if (r + n + s) % 2 = 0 then A else B) := by
    intro r n hr hn
    have h := (pixels_spec tile).2 r n (by rw [hH]; simpa using hr) (by rw [hW]; simpa using hn)
    rw [hW] at h
    have e8 : r * (8 : Int).toNat + n = 8 * r + n := by
      have : (8 : Int).toNat = 8 := rfl
      rw [this, Nat.mul_comm]
    rw [e8, hpix r n hr hn] at h
    exact h
  have hmem : ∀ q ∈ pixels tile, q = A ∨ q = B := by
    intro q hq
    obtain ⟨i, hi, hget⟩ := List.getElem_of_mem hq
    have h := hp (i / 8) (i % 8) (by omega) (by omega)
    have e : 8 * (i / 8) + i % 8 = i := by omega
    rw [e, List.getElem?_eq_getElem hi, hget] at h
    have := Option.some.inj h
    rw [this]
    split
    · exact Or.inl rfl
    · exact Or.inr rfl
  obtain ⟨x, y, rest, hxy⟩ : ∃ x y rest, pixels tile = x :: y :: rest := by
    match hpx : pixels tile with
    | [] => rw [hpx] at hlen; simp at hlen
    | [_] => rw [hpx] at hlen; simp at hlen
    | x :: y :: rest => exact ⟨x, y, rest, rfl⟩
  have hx : x = if s % 2 = 0 then A else B := by
    have := hp 0 0 (by decide) (by decide)
    rw [hxy] at this
    simpa using this
  have hy : y = if (1 + s) % 2 = 0 then A else B := by
    have := hp 0 1 (by decide) (by decide)
    rw [hxy] at this
    simpa [Nat.add_comm] using this
  have hcases : (x = A ∧ y = B) ∨ (x = B ∧ y = A) := by
    rcases Nat.mod_two_eq_zero_or_one s with e | e
    · left
      have e1 : (1 + s) % 2 = 1 := by omega
      rw [hx, hy, e, e1]
      simp
    · right
      have e1 : (1 + s) % 2 = 0 := by omega
      rw [hx, hy, e, e1]
      simp
  have hxne : x ≠ y := by
    rcases hcases with ⟨rfl, rfl⟩ | ⟨rfl, rfl⟩
    · exact hne
    · exact Ne.symm hne
  have hrest : ∀ q ∈ rest, q = x ∨ q = y := by
    intro q hq
    have := hmem q (by rw [hxy]; exact List.mem_cons_of_mem _ (List.mem_cons_of_mem _ hq))
    rcases hcases with ⟨rfl, rfl⟩ | ⟨rfl, rfl⟩
    · exact this
    · exact this.symm
  have hfs : firstSeen (pixels tile) = [x, y] := by
    rw [hxy]
    exact firstSeen_two x y rest hxne hrest
  obtain ⟨st, palette, rawData, data, he, hst, ho, -, -, -, hr, -, hE, hdl, hbytes, -⟩ :=
    Encode_bytes 8 8 false tile (by norm_num) hlen
  rw [hfs] at hst
  have hst' : st.1 = [x, y, GoColor.Gray0, GoColor.Gray0] := by rw [hst]; rfl
  have hord : orderPalette false [x, y, (GoColor.Gray0 : C), GoColor.Gray0]
      = some [A, B, GoColor.Gray0, GoColor.Gray0] := by
    rw [orderPalette_false_eq [x, y, GoColor.Gray0, GoColor.Gray0] rfl]
    rcases hcases with ⟨rfl, rfl⟩ | ⟨rfl, rfl⟩
    · simp [cx, brighter_Gray0, hbBA]
    · simp [cx, brighter_Gray0, hbAB, hbBA]
  rw [hst', hord] at ho
  obtain rfl : [A, B, GoColor.Gray0, GoColor.Gray0] = palette := Option.some.inj ho
  have hiA : List.indexOf A [A, B, (GoColor.Gray0 : C), GoColor.Gray0] = 0 := by simp
  have hiB : List.indexOf B [A, B, (GoColor.Gray0 : C), GoColor.Gray0] = 1 := by
    rw [List.indexOf_cons_ne _ hne]
    simp
  have hraw : ∀ r n : Nat, r < 8 → n < 8 →
      rawData.getD (8 * r + n) 0 = if (r + n + s) % 2 = 0 then 0 else 1 := by
    intro r n hr' hn
    have : rawData[8 * r + n]? = some (if (r + n + s) % 2 = 0 then 0 else 1) := by
      rw [hr, List.getElem?_map, hp r n hr' hn]
      split
      · simp [hiA]
      · simp only [Option.map_some']
        rw [hiB]
    simp [List.getD, this]
  refine ⟨st, data, he, by rw [hst', hord], hE, by rw [hdl], ?_⟩
  intro r hr'
  obtain ⟨hlo, hhi⟩ := hbytes r (by omega)
  have hlow0 : orAll (fun n => lowBit (if n % 2 = 0 then 0 else 1) n) (natRange 0 8) 0
      = 0b01010101 := by decide
  have hlow1 : orAll (fun n => lowBit (if (n + 1) % 2 = 0 then 0 else 1) n) (natRange 0 8) 0
      = 0b10101010 := by decide
  have hhigh0 : orAll (fun n => highBit (if n % 2 = 0 then 0 else 1) n) (natRange 0 8) 0
      = 0 := by decide
  have hhigh1 : orAll (fun n => highBit (if (n + 1) % 2 = 0 then 0 else 1) n) (natRange 0 8) 0
      = 0 := by decide
  have hstart : tile.At tile.Bounds.MinX (tile.Bounds.MinY + (r : Int))
      = if (r + s) % 2 = 0 then A else B := by
    simpa using hpix r 0 hr' (by decide)
  rcases Nat.mod_two_eq_zero_or_one (r + s) with e | e
  · have hf : ∀ n ∈ natRange 0 8, rawData.getD (8 * r + n) 0 = if n % 2 = 0 then 0 else 1 := by
      intro n hn
      have hn8 := (mem_natRange 0 8 n).mp hn
      rw [hraw r n hr' hn8.2]
      have : (r + n + s) % 2 = n % 2 := by omega
      rw [this]
    rw [orAll_congr _ (fun n => lowBit (if n % 2 = 0 then 0 else 1) n) _ _
      (fun n hn => by rw [hf n hn]), hlow0] at hlo
    rw [orAll_congr _ (fun n => highBit (if n % 2 = 0 then 0 else 1) n) _ _
      (fun n hn => by rw [hf n hn]), hhigh0] at hhi
    refine ⟨hhi, fun _ => hlo, ?_⟩
    intro hB
    rw [hstart, e] at hB
    exact absurd (by simpa using hB) hne
  · have hf : ∀ n ∈ natRange 0 8,
        rawData.getD (8 * r + n) 0 = if (n + 1) % 2 = 0 then 0 else 1 := by
      intro n hn
      have hn8 := (mem_natRange 0 8 n).mp hn
      rw [hraw r n hr' hn8.2]
      have : (r + n + s) % 2 = (n + 1) % 2 := by omega
      rw [this]
    rw [orAll_congr _ (fun n => lowBit (if (n + 1) % 2 = 0 then 0 else 1) n) _ _
      (fun n hn => by rw [hf n hn]), hlow1] at hlo
    rw [orAll_congr _ (fun n => highBit (if (n + 1) % 2 = 0 then 0 else 1) n) _ _
      (fun n hn => by rw [hf n hn]), hhigh1] at hhi
    refine ⟨hhi, ?_, fun _ => hlo⟩
    intro hA
    rw [hstart, e] at hA
    exact absurd (by simpa using hA) (Ne.symm hne)

/-- C16, at the black and white checkerboard whose first pixel is white. -/
theorem checkerboard_tile_witness :
    ∃ st data, extractPalette (checkerboard white black) = some st ∧
      orderPalette false st.1 = some [white, black, GoColor.Gray0, GoColor.Gray0] ∧
      Encode 8 8 false (checkerboard white black) = some data ∧ data.length = 16 ∧
      ∀ r : Nat, r < 8 →
        data[2 * r + 1]? = some 0x00 ∧
        ((checkerboard white black).At (checkerboard white black).Bounds.MinX
            ((checkerboard white black).Bounds.MinY + (r : Int)) = white →
          data[2 * r]? = some 0b01010101) ∧
        ((checkerboard white black).At (checkerboard white black).Bounds.MinX
            ((checkerboard white black).Bounds.MinY + (r : Int)) = black →
          data[2 * r]? = some 0b10101010) :=
  checkerboard_tile (checkerboard white black) white black 0 (by decide) (by decide)
    (by decide)
    (by
      intro r n hr hn
      interval_cases r <;> interval_cases n <;> rfl)

end C16

/-! ## C17, C19: unmatched pixels and bounds safety -/

section C17

variable {C : Type} [DecidableEq C] [GoColor C]

end C17

section C19

variable {C : Type} [DecidableEq C] [GoColor C]

/-- C19. Bounds safety of `Encode`: for every `dimX`, `dimY` (product below `2^64`,
a multiple of 8 or not) and every tile of exactly `dimX` by `dimY` pixels, every
stage returns, that is no checked slice or array access is out of range: the
extraction and the sort work on a palette of 4 slots (`colCount ≤ 4`), the
quantizer fills an index buffer of `dimX*dimY` entries, and the packing loop
reads that buffer and fills `dimX*dimY/4` output bytes. -/
theorem Encode_in_bounds (dimX dimY : Nat) (spriteMode : Bool) (tile : Image C)
    (hW : tile.Bounds.MaxX - tile.Bounds.MinX = (dimX : Int))
    (hH : tile.Bounds.MaxY - tile.Bounds.MinY = (dimY : Int))
    (hov : dimX * dimY < 2 ^ 64) :
    ∃ st palette rawData data, extractPalette tile = some st ∧ st.1.length = 4 ∧ st.2 ≤ 4 ∧
      orderPalette spriteMode st.1 = some palette ∧ palette.length = 4 ∧
      quantize dimX dimY tile palette = some rawData ∧ rawData.length = dimX * dimY ∧
      pack dimX dimY rawData = some data ∧ data.length = dimX * dimY / 4 ∧
      Encode dimX dimY spriteMode tile = some data := by
  have hlen := pixels_length_of_dims dimX dimY tile hW hH
  obtain ⟨st, palette, rawData, data, he, hst, ho, hl, -, hq, hr, hpk, hE, hdl, -, -⟩ :=
    Encode_bytes dimX dimY spriteMode tile hov hlen
  have he2 := extractPalette_eq tile
  rw [he] at he2
  have hst2 : st.2 ≤ 4 := by
    rw [Option.some.inj he2]
    exact Nat.min_le_left _ _
  refine ⟨st, palette, rawData, data, he, ?_, hst2, ho, hl, hq, ?_, hpk, hdl, hE⟩
  · rw [hst]
    exact extracted_length tile
  · rw [hr, List.length_map, hlen]

/-- C19, at a concrete tile of 3 by 3 pixels: 9 is not a multiple of 8. -/
theorem Encode_in_bounds_witness :
    ∃ st palette rawData data,
      extractPalette (imageOfRows 3 [[red, green, blue], [white, black, yellow],
        [red, red, red]]) = some st ∧ st.1.length = 4 ∧ st.2 ≤ 4 ∧
      orderPalette false st.1 = some palette ∧ palette.length = 4 ∧
      quantize 3 3 (imageOfRows 3 [[red, green, blue], [white, black, yellow],
        [red, red, red]]) palette = some rawData ∧ rawData.length = 3 * 3 ∧
      pack 3 3 rawData = some data ∧ data.length = 3 * 3 / 4 ∧
      Encode 3 3 false (imageOfRows 3 [[red, green, blue], [white, black, yellow],
        [red, red, red]]) = some data :=
  Encode_in_bounds 3 3 false (imageOfRows 3 [[red, green, blue], [white, black, yellow],
    [red, red, red]]) (by decide) (by decide) (by norm_num)

end C19

/-! ## C14: termination of the tile walk -/

section C14

/-- C14. Termination of the tile walk: for tile width and height at least 1 and
without arithmetic overflow, both tile loops of `main` end: there is a number
of iterations `fuel0` such that with any fuel from `fuel0` on the walk returns
the finite list of visited origins, and it returns as well with any loop body
that itself returns. -/
theorem tile_walk_terminates {β : Type}
    (dimX dimY offsetX offsetY spacingX spacingY maxX maxY : Nat)
    (enc : Nat → Nat → Option (List β))
    (hdx : 1 ≤ dimX) (hdy : 1 ≤ dimY)
    (hox : offsetX + dimX < 2 ^ 64) (hoy : offsetY + dimY < 2 ^ 64)
    (hmx : maxX + dimX + spacingX < 2 ^ 64) (hmy : maxY + dimY + spacingY < 2 ^ 64)
    (henc : ∀ x y, (enc x y).isSome = true) :
    ∃ fuel0 l out, ∀ fuel, fuel0 ≤ fuel →
      tileOrigins dimX dimY offsetX offsetY spacingX spacingY maxX maxY fuel = some l ∧
      walk dimX dimY offsetX spacingX spacingY maxX maxY enc fuel fuel offsetY [] = some out := by
  obtain ⟨out, hout⟩ := appendAll_isSome enc henc
    (gridOrigins (gridCoords dimX offsetX spacingX (tileCount dimX offsetX spacingX maxX))
      (gridCoords dimY offsetY spacingY (tileCount dimY offsetY spacingY maxY))) []
  refine ⟨tileCount dimX offsetX spacingX maxX + tileCount dimY offsetY spacingY maxY + 1,
    gridOrigins (gridCoords dimX offsetX spacingX (tileCount dimX offsetX spacingX maxX))
      (gridCoords dimY offsetY spacingY (tileCount dimY offsetY spacingY maxY)),
    out, ?_⟩
  intro fuel hf
  refine ⟨tileOrigins_eq dimX dimY offsetX offsetY spacingX spacingY maxX maxY hdx hdy hox hoy
    hmx hmy fuel (by omega) (by omega), ?_⟩
  rw [walk_eq dimX dimY offsetX spacingX spacingY maxX maxY enc fuel hdx hdy hox hmx hmy
    (by omega) _ offsetY fuel [] rfl hoy (by omega)]
  exact hout

/-- C14, at a concrete walk: 8x8 tiles, offset (1, 2), spacing (3, 4), surface
40x40, with a body that yields one number per tile. -/
theorem tile_walk_terminates_witness :
    ∃ fuel0 l out, ∀ fuel, fuel0 ≤ fuel →
      tileOrigins 8 8 1 2 3 4 40 40 fuel = some l ∧
      walk 8 8 1 3 4 40 40 (fun x y => some [x + y]) fuel fuel 2 [] = some out :=
  tile_walk_terminates 8 8 1 2 3 4 40 40 (fun x y => some [x + y]) (by decide) (by decide)
    (by norm_num) (by norm_num) (by norm_num) (by norm_num) (fun _ _ => rfl)

end C14

/-! ## C11: palette overflow -/

section C11

/-- C11. Palette overflow, evaluated at `fiveColorTile` with the pin off: the fifth
pixel is yellow, the ordered palette is white, blue, green, red and does not
hold yellow, no slot of it has the key of black, and the two bits `Encode`
packs for the yellow pixel decode to index 0, the slot of white. -/
theorem overflow_pixel_not_black :
    (pixels fiveColorTile)[4]? = some yellow ∧
    (extractPalette fiveColorTile).bind (fun st => orderPalette false st.1)
      = some [white, blue, green, red] ∧
    yellow ∉ [white, blue, green, red] ∧
    (∀ c ∈ [white, blue, green, red], key c ≠ key (GoColor.Gray0 : StdColor)) ∧
    Encode 8 8 false fiveColorTile = some [80, 96, 0, 0, 0, 0, 0, 0, 0, 0, 0, 0, 0, 0, 0, 0] ∧
    decodeIndex [80, 96, 0, 0, 0, 0, 0, 0, 0, 0, 0, 0, 0, 0, 0, 0] 0 4 = 0 ∧
    [white, blue, green, red][decodeIndex [80, 96, 0, 0, 0, 0, 0, 0, 0, 0, 0, 0, 0, 0, 0, 0] 0 4]?
      = some white := by
  refine ⟨by decide, by decide, by decide, by decide, by decide, by decide, by decide⟩

end C11

/-! ## C12: the scope of the transparency pin -/

section C12

variable {C : Type} [DecidableEq C] [GoColor C]

end C12

end Pictotile
